import Mathlib

/-!
Verification development for the missing.link content spider
(robots.txt parser, content extractor, crawl orchestrator).

The TypeScript sources are shallowly embedded below:
* `jsUrlParse` / `serializeUrl` model the WHATWG `URL` object as the code
  uses it (scheme://host[:port]/path?query#frag, special-scheme behaviour,
  hostname lowercasing, no userinfo / dot-segment / percent-escape
  handling, which the crawler never relies on);
* `ContentExtractor.normalizeUrl` and `ContentExtractor.classifyPage`
  follow `extractor.ts`;
* `RobotsParser.parseRobots`, `pathMatches`, `findMatchingGroup` and
  `isAllowed` follow `robots.ts`;
* the crawl loop of `Crawler.processQueue` is embedded as the step
  function `stepOnce` on an explicit `LoopState`, with a fetch oracle
  `env : String → FetchOutcome` standing for the network and ghost
  fields (`fetchLog`, `sleepCount`, `stateFileExists`) recording the
  side effects the specification talks about.
-/

namespace Spider

/-- ASCII lowercasing of a character list (models JS `toLowerCase` on the
ASCII range, which is all the crawler compares). -/
def lowerL (l : List Char) : List Char := l.map Char.toLower

/-- Lowercase a string. -/
def lowerS (s : String) : String := ⟨lowerL s.data⟩

/-- Boolean list-prefix test. -/
def isPrefixB : List Char → List Char → Bool
  | [], _ => true
  | _ :: _, [] => false
  | a :: as, b :: bs => a = b && isPrefixB as bs

/-- Boolean substring test on character lists (models JS `String.includes`). -/
def isSubstrL (n : List Char) : List Char → Bool
  | [] => isPrefixB n []
  | c :: t => isPrefixB n (c :: t) || isSubstrL n t

/-- Substring test on strings. -/
def isSubstr (n h : String) : Bool := isSubstrL n.data h.data

/-! ### Model of the WHATWG `URL` builtin

The crawler manipulates URLs exclusively through `new URL(...)`,
`.pathname`, `.search`, `.hostname`, `.hash`, `.searchParams.sort()` and
`.toString()`.  The model below covers `scheme://host[:port]path?query#frag`
URLs as the browser parser canonicalises them (lowercased scheme and host,
`/` pathname when absent, default http/https port elided); userinfo,
dot-segment removal and percent-escaping are outside the model. -/

/-- An ASCII letter (by code point). -/
def letterB (c : Char) : Bool :=
  decide ((65 ≤ c.toNat ∧ c.toNat ≤ 90) ∨ (97 ≤ c.toNat ∧ c.toNat ≤ 122))

/-- An ASCII digit (by code point). -/
def digitB (c : Char) : Bool := decide (48 ≤ c.toNat ∧ c.toNat ≤ 57)

/-- Characters allowed after the first one in a URL scheme. -/
def schemeCharOk (c : Char) : Bool := letterB c || digitB c || c = '+' || c = '-' || c = '.'

/-- A syntactically valid URL scheme: a letter followed by scheme characters. -/
def schemeOk : List Char → Bool
  | [] => false
  | c :: cs => letterB c && cs.all schemeCharOk

/-- Characters the model accepts inside a hostname. -/
def hostCharOk (c : Char) : Bool :=
  !(c = ':' || c = '/' || c = '?' || c = '#' || c = '@' || c = '[' || c = ']' || c = '\\' || c = ' ')

/-- A non-empty hostname of acceptable characters. -/
def hostOk (l : List Char) : Bool := !l.isEmpty && l.all hostCharOk

/-- Not an authority terminator (`/`, `?`, `#`). -/
def notDelim3 (c : Char) : Bool := !(c = '/' || c = '?' || c = '#')

/-- Not a path terminator (`?`, `#`). -/
def notDelim2 (c : Char) : Bool := !(c = '?' || c = '#')

/-- The components of a parsed URL, mirroring the `URL` object record. -/
structure JsUrl where
  scheme : List Char
  host : List Char
  port : Option (List Char)
  path : List Char
  query : Option (List Char)
  frag : Option (List Char)
deriving DecidableEq

/-- Port canonicalisation: empty port and the scheme's default port read as
"no port". -/
def canonPort (sch ds : List Char) : Option (List Char) :=
  if ds = [] then none
  else if sch = "http".data ∧ ds = "80".data then none
  else if sch = "https".data ∧ ds = "443".data then none
  else some ds

/-- Split an authority into lowercased host and optional digit port. -/
def parseHostPort (sch auth : List Char) : Option (List Char × Option (List Char)) :=
  if hostOk (auth.takeWhile (· ≠ ':')) then
    match auth.dropWhile (· ≠ ':') with
    | [] => some (lowerL (auth.takeWhile (· ≠ ':')), none)
    | c :: ds =>
      if c = ':' then
        (if ds.all digitB then some (lowerL (auth.takeWhile (· ≠ ':')), canonPort sch ds)
         else none)
      else none
  else none

/-- Fragment from what follows the query. -/
def fragAfter : List Char → Option (List Char)
  | [] => none
  | c :: r => if c = '#' then some r else none

/-- Parse path, query and fragment from everything after the authority. -/
def parseTail (rest : List Char) : List Char × Option (List Char) × Option (List Char) :=
  match rest with
  | [] => (['/'], none, none)
  | c :: r =>
    if c = '#' then (['/'], none, some r)
    else if c = '?' then (['/'], some (r.takeWhile (· ≠ '#')), fragAfter (r.dropWhile (· ≠ '#')))
    else
      let pa := (c :: r).takeWhile notDelim2
      match (c :: r).dropWhile notDelim2 with
      | [] => (pa, none, none)
      | d :: r₂ =>
        if d = '#' then (pa, none, some r₂)
        else if d = '?' then
          (pa, some (r₂.takeWhile (· ≠ '#')), fragAfter (r₂.dropWhile (· ≠ '#')))
        else (pa, none, none)

/-- Parse everything after `scheme://`. -/
def parseAfterScheme (sch r : List Char) : Option JsUrl :=
  match parseHostPort sch (r.takeWhile notDelim3) with
  | none => none
  | some (h, p) =>
    some ⟨sch, h, p, (parseTail (r.dropWhile notDelim3)).1,
      (parseTail (r.dropWhile notDelim3)).2.1, (parseTail (r.dropWhile notDelim3)).2.2⟩

/-- `new URL(s)` on a character list: `none` models the constructor throwing. -/
def jsUrlParseL (l : List Char) : Option JsUrl :=
  match l.dropWhile (· ≠ ':') with
  | c₁ :: c₂ :: c₃ :: r =>
    if c₁ = ':' ∧ c₂ = '/' ∧ c₃ = '/' then
      (if schemeOk (l.takeWhile (· ≠ ':')) then
        parseAfterScheme (lowerL (l.takeWhile (· ≠ ':'))) r
       else none)
    else none
  | _ => none

/-- `new URL(s)`. -/
def jsUrlParse (s : String) : Option JsUrl := jsUrlParseL s.data

/-- Serialised port. -/
def portL : Option (List Char) → List Char
  | none => []
  | some ds => ':' :: ds

/-- Serialised query. -/
def queryL : Option (List Char) → List Char
  | none => []
  | some q => '?' :: q

/-- Serialised fragment. -/
def fragL : Option (List Char) → List Char
  | none => []
  | some f => '#' :: f

/-- `URL.toString()` on the component record. -/
def serializeL (u : JsUrl) : List Char :=
  u.scheme ++ (':' :: '/' :: '/' :: u.host) ++ portL u.port ++ u.path ++ queryL u.query ++ fragL u.frag

/-- `URL.toString()`. -/
def serializeUrl (u : JsUrl) : String := ⟨serializeL u⟩

/-- `URL.search`: `"?" + query` when the query is non-null and non-empty. -/
def searchOf (u : JsUrl) : List Char :=
  match u.query with
  | none => []
  | some [] => []
  | some q => '?' :: q

/-- `pathname + search`, the string robots rules and URL filters match on. -/
def pathQ (u : JsUrl) : List Char := u.path ++ searchOf u

/-- Split a query on `&` (splitting an empty query yields one empty segment,
which the pair parser discards). -/
def splitAmp : List Char → List (List Char)
  | [] => [[]]
  | c :: t =>
    if c = '&' then [] :: splitAmp t
    else
      match splitAmp t with
      | [] => [[c]]
      | h :: r => (c :: h) :: r

/-- A `name=value` segment; a segment without `=` reads as an empty value. -/
def pairOfSeg (seg : List Char) : List Char × List Char :=
  (seg.takeWhile (· ≠ '='),
   match seg.dropWhile (· ≠ '=') with
   | [] => []
   | e :: v => if e = '=' then v else [])

/-- `URLSearchParams` list of name/value pairs of a raw query. -/
def parsePairs (q : List Char) : List (List Char × List Char) :=
  (splitAmp q).filterMap (fun seg => if seg = [] then none else some (pairOfSeg seg))

/-- Join segments with `&`. -/
def joinAmp : List (List Char) → List Char
  | [] => []
  | [s] => s
  | s :: r => s ++ '&' :: joinAmp r

/-- `URLSearchParams.toString()`: every pair serialises as `name=value`. -/
def serializePairs (ps : List (List Char × List Char)) : List Char :=
  joinAmp (ps.map (fun p => p.1 ++ '=' :: p.2))

/-- Code-unit lexicographic order on parameter names, as the JS sort compares. -/
def lexLe : List Char → List Char → Bool
  | [], _ => true
  | _ :: _, [] => false
  | a :: as, b :: bs => a.toNat < b.toNat || (a = b && lexLe as bs)

/-- Stable insertion of a pair by name. -/
def insPair (x : List Char × List Char) :
    List (List Char × List Char) → List (List Char × List Char)
  | [] => [x]
  | y :: ys => if lexLe x.1 y.1 then x :: y :: ys else y :: insPair x ys

/-- Stable sort of the pairs by name (insertion sort; the JS array sort is
stable, so any stable sort computes the same list). -/
def sortPairs : List (List Char × List Char) → List (List Char × List Char)
  | [] => []
  | x :: xs => insPair x (sortPairs xs)

/-- `searchParams.sort()` as `normalizeUrl` triggers it: parse the raw query
into pairs, stable-sort by name, and drop the query entirely when there are
no pairs. -/
def normQuery : Option (List Char) → Option (List Char)
  | none => none
  | some q =>
    match sortPairs (parsePairs q) with
    | [] => none
    | ps => some (serializePairs ps)

/-- Does the path end in `/`? -/
def endsSlash (p : List Char) : Bool :=
  match p.reverse with
  | [] => false
  | c :: _ => c = '/'

/-- Does the path end in `//`? -/
def endsDblSlash (p : List Char) : Bool :=
  match p.reverse with
  | c :: d :: _ => c = '/' && d = '/'
  | _ => false

/-- `normalizeUrl`'s trailing-slash removal: drop one trailing slash unless
the path is exactly `/`. -/
def stripSlash (p : List Char) : List Char :=
  if p ≠ ['/'] ∧ endsSlash p then p.dropLast else p

/-- The field updates `normalizeUrl` performs on a parsed URL: clear the
fragment, strip one trailing slash, sort the query parameters, lowercase the
hostname. -/
def normParts (u : JsUrl) : JsUrl :=
  { u with frag := none, path := stripSlash u.path, query := normQuery u.query,
           host := lowerL u.host }

/-- `ContentExtractor.normalizeUrl`: normalise a parsed URL and reserialise
it; a string the URL constructor rejects is returned unchanged. -/
def normalizeUrl (s : String) : String :=
  match jsUrlParse s with
  | none => s
  | some u => serializeUrl (normParts u)

/-- The shape invariant every `jsUrlParse` result satisfies (fragment
aside): canonical scheme and host, digit non-default port, a `/`-rooted
path free of `?`/`#`, a query free of `#`. -/
def WFUrl (u : JsUrl) : Prop :=
  schemeOk u.scheme = true ∧ lowerL u.scheme = u.scheme ∧
  hostOk u.host = true ∧ lowerL u.host = u.host ∧
  (∀ ds, u.port = some ds → canonPort u.scheme ds = some ds ∧ ds.all digitB = true) ∧
  (∃ p', u.path = '/' :: p') ∧ (∀ c ∈ u.path, notDelim2 c = true) ∧
  (∀ q, u.query = some q → ∀ c ∈ q, c ≠ '#')

/-! ### ContentExtractor: page classification

`classifyPage(url, html, metadata)` reads only the URL's lowercased
pathname, the lowercased metadata title and `metadata.ogType`; the `html`
argument is unused by the source.  Each category's path regex
`/\/(kw1|kw2|...)/` is an unanchored search, i.e. the path contains
`"/" + kw` for one of the keywords; title keywords use `String.includes`. -/

/-- The fixed page-type vocabulary. -/
inductive PageType where
  | homepage | about | team | product | news | contact | legal | other
deriving DecidableEq

/-- The metadata record `extractMetadata` produces, as `classifyPage`
consumes it. -/
structure PageMetadata where
  title : String
  description : String
  canonicalUrl : Option String
  ogImage : Option String
  ogType : Option String
  language : Option String
  author : Option String
  publishedDate : Option String
  modifiedDate : Option String
deriving DecidableEq

/-- A metadata record with every field empty. -/
def emptyMeta : PageMetadata :=
  ⟨"", "", none, none, none, none, none, none, none⟩

/-- Does the (lowercased) path contain `"/" + kw` for one of the keywords? -/
def pathKw (pathLower : List Char) (kws : List String) : Bool :=
  kws.any (fun k => isSubstrL ('/' :: k.data) pathLower)

/-- Does the (lowercased) title contain one of the keywords? -/
def titleKw (titleLower : List Char) (kws : List String) : Bool :=
  kws.any (fun k => isSubstrL k.data titleLower)

/-- `ContentExtractor.classifyPage`.  `none` models the exception the
unguarded `new URL(url)` call throws on an invalid URL. -/
def classifyPage (url html : String) (m : PageMetadata) : Option PageType :=
  match jsUrlParse url with
  | none => none
  | some u =>
    let pathLower := lowerL u.path
    let titleLower := lowerL m.title.data
    some (
      if pathLower = ['/'] ∨ pathLower = [] then PageType.homepage
      else if pathKw pathLower ["about", "company", "who-we-are", "our-story", "mission",
              "values"] ||
            titleKw titleLower ["about us", "our company", "who we are"] then PageType.about
      else if pathKw pathLower ["team", "leadership", "people", "management", "executives",
              "staff", "our-team"] ||
            titleKw titleLower ["our team", "leadership", "management team"] then PageType.team
      else if pathKw pathLower ["product", "service", "solution", "offering", "platform",
              "feature"] ||
            titleKw titleLower ["product", "service", "solution"] then PageType.product
      else if pathKw pathLower ["news", "press", "blog", "article", "post", "stories",
              "media", "announcement"] ||
            m.ogType = some "article" ||
            titleKw titleLower ["news", "press release", "blog"] then PageType.news
      else if pathKw pathLower ["contact", "get-in-touch", "reach-us", "connect",
              "inquiry"] ||
            titleKw titleLower ["contact", "get in touch"] then PageType.contact
      else if pathKw pathLower ["privacy", "terms", "legal", "policy", "disclaimer",
              "cookie", "gdpr", "ccpa"] ||
            titleKw titleLower ["privacy policy", "terms of", "legal"] then PageType.legal
      else PageType.other)

/-! ### RobotsParser -/

/-- One `Allow`/`Disallow` rule. -/
structure RobotsRule where
  path : String
  allow : Bool
deriving DecidableEq

/-- One user-agent group of robots.txt. -/
structure RobotsGroup where
  userAgents : List String
  rules : List RobotsRule
  crawlDelay : Option String
deriving DecidableEq

/-- The parsed robots.txt: groups in declaration order plus sitemap URLs. -/
structure RobotsData where
  groups : List RobotsGroup
  sitemaps : List String
deriving DecidableEq

/-- Does the character list start a float literal (digits, `.digit`, or
`Infinity`)? -/
def floatStart (l : List Char) : Bool :=
  match l with
  | [] => false
  | c :: rest =>
    if c = '.' then
      (match rest with
       | [] => false
       | d :: _ => digitB d)
    else digitB c || (c :: rest).take 8 = "Infinity".data

/-- Is the numeric mantissa prefix zero (so a leading `-` still passes the
`>= 0` check, as `-0 >= 0` holds in JS)? -/
def mantissaZero (l : List Char) : Bool :=
  !(l.takeWhile (fun c => digitB c || c = '.')).isEmpty &&
    (l.takeWhile (fun c => digitB c || c = '.')).all (fun c => c = '0' || c = '.')

/-- Model of `!isNaN(parseFloat v) && parseFloat v >= 0` on the trimmed
crawl-delay value. -/
def parseFloatNonneg (s : String) : Bool :=
  match s.data with
  | [] => false
  | c :: rest =>
    if c = '+' then floatStart rest
    else if c = '-' then floatStart rest && mantissaZero rest
    else floatStart (c :: rest)

/-- Whitespace-trim a character list (JS `String.trim`). -/
def trimL (l : List Char) : List Char :=
  ((l.dropWhile Char.isWhitespace).reverse.dropWhile Char.isWhitespace).reverse

/-- Split on newlines (JS `split("\n")`). -/
def splitNL : List Char → List (List Char)
  | [] => [[]]
  | c :: t =>
    if c = '\n' then [] :: splitNL t
    else
      match splitNL t with
      | [] => [[c]]
      | h :: r => (c :: h) :: r

/-- Process one robots.txt line.  The accumulator holds the groups in
reverse order (the head is the group `currentGroup` points at; the JS
`currentGroup === null` state corresponds to the empty list, since every
created group is pushed immediately) and the sitemap list. -/
def robotsLine (acc : List RobotsGroup × List String) (line : List Char) :
    List RobotsGroup × List String :=
  let l := trimL (line.takeWhile (· ≠ '#'))
  if l = [] then acc
  else
    match l.dropWhile (· ≠ ':') with
    | [] => acc
    | _ :: afterColon =>
      let directive := lowerL (trimL (l.takeWhile (· ≠ ':')))
      let value := trimL afterColon
      if value = [] then acc
      else if directive = "user-agent".data then
        match acc.1 with
        | [] => ([⟨[⟨lowerL value⟩], [], none⟩], acc.2)
        | g :: gs =>
          if 0 < g.rules.length ∨ g.crawlDelay ≠ none then
            (⟨[⟨lowerL value⟩], [], none⟩ :: g :: gs, acc.2)
          else
            ({ g with userAgents := g.userAgents ++ [⟨lowerL value⟩] } :: gs, acc.2)
      else if directive = "disallow".data then
        match acc.1 with
        | [] => acc
        | g :: gs => ({ g with rules := g.rules ++ [⟨⟨value⟩, false⟩] } :: gs, acc.2)
      else if directive = "allow".data then
        match acc.1 with
        | [] => acc
        | g :: gs => ({ g with rules := g.rules ++ [⟨⟨value⟩, true⟩] } :: gs, acc.2)
      else if directive = "crawl-delay".data then
        match acc.1 with
        | [] => acc
        | g :: gs =>
          if parseFloatNonneg ⟨value⟩ then ({ g with crawlDelay := some ⟨value⟩ } :: gs, acc.2)
          else (g :: gs, acc.2)
      else if directive = "sitemap".data then
        (acc.1, acc.2 ++ [⟨value⟩])
      else acc

/-- `RobotsParser.parse`: fold the comment-stripped, trimmed lines. -/
def parseRobots (txt : String) : RobotsData :=
  let acc := (splitNL txt.data).foldl robotsLine ([], [])
  ⟨acc.1.reverse, acc.2⟩

/-- Does the pattern end in `$`? -/
def endsDollar (p : List Char) : Bool :=
  match p.reverse with
  | [] => false
  | c :: _ => c = '$'

/-- Try the continuation on every suffix of the text: the backtracking of
a `.*` regex atom. -/
def starLoop (f : List Char → Bool) : List Char → Bool
  | [] => f []
  | c :: t => f (c :: t) || starLoop f t

/-- Try the continuation on every suffix reachable by consuming non-`/`
characters: the backtracking of a `[^/]*` regex atom. -/
def starNS (f : List Char → Bool) : List Char → Bool
  | [] => f []
  | c :: t => f (c :: t) || (!(decide (c = '/')) && starNS f t)

/-- The regex `pathMatches` builds: `^` + the pattern with `*` as `.*` and
every other character literal, plus `$` when end-anchored.  `anchorEnd`
decides whether the whole remaining path must be consumed. -/
def rxMatch (anchorEnd : Bool) : List Char → List Char → Bool
  | [], l => if anchorEnd then l.isEmpty else true
  | c :: ps, l =>
    if c = '*' then starLoop (rxMatch anchorEnd ps) l
    else
      match l with
      | [] => false
      | d :: t => c = d && rxMatch anchorEnd ps t

/-- `RobotsParser.pathMatches`: empty patterns match nothing; a trailing
`$` anchors the end; `*` matches any run of characters.  (The JS `catch`
fallback is unreachable: the built regex is always valid because every
metacharacter is escaped.) -/
def pathMatches (pattern path : String) : Bool :=
  if pattern.data = [] then false
  else
    rxMatch (endsDollar pattern.data)
      (if endsDollar pattern.data then pattern.data.dropLast else pattern.data)
      path.data

/-- `rule.path.replace(/\*/g, "").length`, the specificity measure. -/
def stripLen (p : String) : Nat := (p.data.filter (· ≠ '*')).length

/-- One step of the best-rule fold in `isAllowed`: longest stripped path
wins, a tie is re-awarded to an `Allow` rule. -/
def bestRuleFold (path : String) (acc : Option RobotsRule × Int) (r : RobotsRule) :
    Option RobotsRule × Int :=
  if pathMatches r.path path then
    if acc.2 < (stripLen r.path : Int) then (some r, (stripLen r.path : Int))
    else if acc.2 = (stripLen r.path : Int) ∧ r.allow = true then (some r, acc.2)
    else acc
  else acc

/-- The most specific matching rule (`bestMatch` with `bestMatchLength`
starting at `-1`). -/
def bestRule (rules : List RobotsRule) (path : String) : Option RobotsRule :=
  (rules.foldl (bestRuleFold path) (none, (-1 : Int))).1

/-- First loop of `findMatchingGroup`: skip any group one of whose tokens
is a substring of the agent or is `*`, otherwise return a group with an
exact token.  (The skip condition subsumes exact equality, so this loop
never returns a group; it is translated faithfully and proved dead.) -/
def exactLoop (ua : String) : List RobotsGroup → Option RobotsGroup
  | [] => none
  | g :: gs =>
    if g.userAgents.any (fun a => isSubstr a ua || a = "*") then exactLoop ua gs
    else if g.userAgents.any (fun a => a = ua) then some g
    else exactLoop ua gs

/-- Inner token loop of the partial-match pass: a non-`*` token that is a
substring of the agent and strictly longer than the best so far captures
the group. -/
def partialStep (ua : String) (g : RobotsGroup) (acc : Option RobotsGroup × Nat) :
    Option RobotsGroup × Nat :=
  g.userAgents.foldl
    (fun acc a =>
      if a ≠ "*" ∧ isSubstr a ua = true ∧ acc.2 < a.length then (some g, a.length) else acc)
    acc

/-- Second loop of `findMatchingGroup`: longest substring token wins. -/
def partialLoop (ua : String) (gs : List RobotsGroup) : Option RobotsGroup :=
  (gs.foldl (fun acc g => partialStep ua g acc) (none, 0)).1

/-- Third loop of `findMatchingGroup`: first wildcard group. -/
def wildLoop (gs : List RobotsGroup) : Option RobotsGroup :=
  gs.find? (fun g => g.userAgents.contains "*")

/-- `RobotsParser.findMatchingGroup`. -/
def findMatchingGroup (gs : List RobotsGroup) (userAgent : String) : Option RobotsGroup :=
  match exactLoop (lowerS userAgent) gs with
  | some g => some g
  | none =>
    match partialLoop (lowerS userAgent) gs with
    | some g => some g
    | none => wildLoop gs

/-- `RobotsParser.isAllowed`: an unparseable URL is conservatively
disallowed; no group or no rules or no matching rule allows; otherwise the
most specific matching rule decides, matched against `pathname + search`. -/
def isAllowed (gs : List RobotsGroup) (url userAgent : String) : Bool :=
  match jsUrlParse url with
  | none => false
  | some u =>
    match findMatchingGroup gs userAgent with
    | none => true
    | some g =>
      if g.rules.isEmpty then true
      else
        match bestRule g.rules ⟨pathQ u⟩ with
        | none => true
        | some r => r.allow

/-- `RobotsParser.getCrawlDelay`. -/
def getCrawlDelay (gs : List RobotsGroup) (userAgent : String) : Option String :=
  (findMatchingGroup gs userAgent).bind (fun g => g.crawlDelay)

/-! ### Crawl orchestrator

`Crawler.processQueue` is embedded as a step function over an explicit
loop state.  The network is a fetch oracle `env : String → FetchOutcome`
(what `fetchPage` returns: a failed record carrying an error, or a
successful one carrying the extracted internal links, byte length and page
type).  Ghost fields record the observable events the specification
reasons about: `fetchLog` (the URLs passed to `fetchPage`, in order),
`sleepCount` (how many times the politeness delay ran) and
`stateFileExists` (whether `state.json` is on disk; `saveState` sets it,
`resume`'s `unlinkSync` clears it).  Manifest page/error entries are
abstracted to their URL key. -/

/-- What a single `fetchPage` call yields, as the loop consumes it. -/
inductive FetchOutcome where
  | ok (internalLinks : List String) (contentLength : Nat) (ptype : PageType)
  | err (msg : String) (status : Nat)
deriving DecidableEq

/-- A frontier entry. -/
structure QueueItem where
  url : String
  depth : Nat
deriving DecidableEq

/-- `stats.pagesByType`. -/
structure PagesByType where
  homepage : Nat
  about : Nat
  team : Nat
  product : Nat
  news : Nat
  contact : Nat
  legal : Nat
  other : Nat
deriving DecidableEq

/-- `this.stats.pagesByType[result.type]++`. -/
def bumpType (p : PagesByType) : PageType → PagesByType
  | .homepage => { p with homepage := p.homepage + 1 }
  | .about => { p with about := p.about + 1 }
  | .team => { p with team := p.team + 1 }
  | .product => { p with product := p.product + 1 }
  | .news => { p with news := p.news + 1 }
  | .contact => { p with contact := p.contact + 1 }
  | .legal => { p with legal := p.legal + 1 }
  | .other => { p with other := p.other + 1 }

/-- The aggregate counters of `CrawlStats` (the derived running latency
average is elided; it is never read by the loop). -/
structure CrawlStats where
  pagesRequested : Nat
  pagesSuccessful : Nat
  pagesFailed : Nat
  totalBytes : Nat
  pagesByType : PagesByType
deriving DecidableEq

/-- `Crawler.initStats`. -/
def initStats : CrawlStats := ⟨0, 0, 0, 0, ⟨0, 0, 0, 0, 0, 0, 0, 0⟩⟩

/-- The configuration fields the loop reads. -/
structure SpiderConfig where
  seedUrl : String
  maxPages : Nat
  maxDepth : Nat
  delayMs : Nat
  includePatterns : List String
  excludePatterns : List String
  userAgent : String
deriving DecidableEq

/-- The mutable crawler state of one `processQueue` run plus the ghost
observation fields. -/
structure LoopState where
  queue : List QueueItem
  visited : List String
  stats : CrawlStats
  manifestPages : List String
  manifestErrors : List String
  fetchLog : List String
  sleepCount : Nat
  stateFileExists : Bool
deriving DecidableEq

/-- The `**`/`*`/`?` glob-to-regex matcher `Crawler.matchGlob` builds,
case-insensitivity applied by lowercasing both sides. -/
def globCore : List Char → List Char → Bool
  | [], l => l.isEmpty
  | [c], l =>
    if c = '*' then starNS (globCore []) l
    else if c = '?' then
      (match l with
       | [] => false
       | d :: t => !(decide (d = '/')) && globCore [] t)
    else
      (match l with
       | [] => false
       | d :: t => c = d && globCore [] t)
  | c :: c₂ :: ps₂, l =>
    if c = '*' then
      (if c₂ = '*' then starLoop (globCore ps₂) l
       else starNS (globCore (c₂ :: ps₂)) l)
    else if c = '?' then
      (match l with
       | [] => false
       | d :: t => !(decide (d = '/')) && globCore (c₂ :: ps₂) t)
    else
      (match l with
       | [] => false
       | d :: t => c = d && globCore (c₂ :: ps₂) t)

/-- `Crawler.matchGlob` (the `i` flag modelled by lowercasing). -/
def matchGlob (pattern text : String) : Bool :=
  globCore (lowerL pattern.data) (lowerL text.data)

/-- `Crawler.shouldCrawl`: exclude patterns first (and they win), then the
include patterns must hit if configured; both are tried against
`pathname + search` and the full URL; an unparseable URL is refused. -/
def shouldCrawl (cfg : SpiderConfig) (url : String) : Bool :=
  match jsUrlParse url with
  | none => false
  | some u =>
    if cfg.excludePatterns.any (fun p => matchGlob p ⟨pathQ u⟩ || matchGlob p url) then false
    else if 0 < cfg.includePatterns.length then
      cfg.includePatterns.any (fun p => matchGlob p ⟨pathQ u⟩ || matchGlob p url)
    else true

/-- The dequeued item is skipped (`continue`, before marking visited) when
it is already visited, too deep, robots-disallowed, or filtered out —
checked in that order in the source; all four skips behave identically. -/
def skipCheck (cfg : SpiderConfig) (robots : Option (List RobotsGroup))
    (s : LoopState) (item : QueueItem) : Bool :=
  s.visited.contains (normalizeUrl item.url) ||
  decide (cfg.maxDepth < item.depth) ||
  (match robots with
   | some gs => !(isAllowed gs (normalizeUrl item.url) cfg.userAgent)
   | none => false) ||
  !(shouldCrawl cfg (normalizeUrl item.url))

/-- Mark visited, fetch, and record the outcome: on failure bump the
failure counters and append a manifest error; on success bump the success
counters, append a manifest page entry and enqueue every discovered
internal link whose normalized form is not yet visited, at depth+1. -/
def applyFetch (env : String → FetchOutcome) (item : QueueItem) (rest : List QueueItem)
    (s : LoopState) : LoopState :=
  match env (normalizeUrl item.url) with
  | .err _ _ =>
    { s with queue := rest,
             visited := normalizeUrl item.url :: s.visited,
             fetchLog := s.fetchLog ++ [normalizeUrl item.url],
             stats := { s.stats with
               pagesFailed := s.stats.pagesFailed + 1,
               pagesRequested := s.stats.pagesRequested + 1 },
             manifestErrors := s.manifestErrors ++ [normalizeUrl item.url] }
  | .ok links len ty =>
    { s with
        queue := rest ++ links.filterMap (fun link =>
          if (normalizeUrl item.url :: s.visited).contains (normalizeUrl link) then none
          else some ⟨normalizeUrl link, item.depth + 1⟩),
        visited := normalizeUrl item.url :: s.visited,
        fetchLog := s.fetchLog ++ [normalizeUrl item.url],
        stats := { s.stats with
          pagesSuccessful := s.stats.pagesSuccessful + 1,
          pagesRequested := s.stats.pagesRequested + 1,
          totalBytes := s.stats.totalBytes + len,
          pagesByType := bumpType s.stats.pagesByType ty },
        manifestPages := s.manifestPages ++ [normalizeUrl item.url] }

/-- Every 10th fetch attempt (`pagesRequested % 10 === 0`) checkpoints
`state.json` (and the manifest) to disk. -/
def applyCheckpoint (s : LoopState) : LoopState :=
  if s.stats.pagesRequested % 10 = 0 then { s with stateFileExists := true } else s

/-- The politeness gate at the end of an iteration: sleep only when the
frontier is still non-empty. -/
def applySleep (s : LoopState) : LoopState :=
  if 0 < s.queue.length then { s with sleepCount := s.sleepCount + 1 } else s

/-- One full iteration of the `processQueue` while-loop body (assuming the
loop condition held): dequeue, either skip (`continue` — bypassing the
checkpoint and the delay) or fetch-record-checkpoint-sleep. -/
def stepOnce (cfg : SpiderConfig) (robots : Option (List RobotsGroup))
    (env : String → FetchOutcome) (s : LoopState) : LoopState :=
  match s.queue with
  | [] => s
  | item :: rest =>
    if skipCheck cfg robots s item then { s with queue := rest }
    else applySleep (applyCheckpoint (applyFetch env item rest s))

/-- The `while` condition of `processQueue`. -/
def looping (cfg : SpiderConfig) (s : LoopState) : Bool :=
  0 < s.queue.length && s.stats.pagesSuccessful < cfg.maxPages

/-- The guarded step: run one loop iteration while the condition holds,
otherwise leave the state unchanged (the loop has exited). -/
def stepG (cfg : SpiderConfig) (robots : Option (List RobotsGroup))
    (env : String → FetchOutcome) (s : LoopState) : LoopState :=
  if looping cfg s then stepOnce cfg robots env s else s

/-- The state `Crawler.crawl` enters `processQueue` with: the normalized
seed at depth 0, nothing visited, zeroed stats, no files written. -/
def initState (cfg : SpiderConfig) : LoopState :=
  ⟨[⟨normalizeUrl cfg.seedUrl, 0⟩], [], initStats, [], [], [], 0, false⟩

/-- What `Crawler.resume` does after `processQueue` returns: delete the
checkpoint file (`fs.unlinkSync(stateFile)`).  `Crawler.crawl` has no
counterpart to this. -/
def resumeFinish (s : LoopState) : LoopState := { s with stateFileExists := false }

/-- The termination measure of the loop: successes still allowed, then
frontier length. -/
def loopMeasure (cfg : SpiderConfig) (s : LoopState) : Nat × Nat :=
  (cfg.maxPages - s.stats.pagesSuccessful, s.queue.length)

/-! ### Spec-side definitions (for the refinement claims)

These follow the specification's words, to be compared with the
source-translated functions above. -/

/-- The rules of the group that match the path. -/
def matchingRules (rules : List RobotsRule) (path : String) : List RobotsRule :=
  rules.filter (fun r => pathMatches r.path path)

/-- Spec-side rule decision: no matching rule allows; otherwise, among the
matching rules, the one with the longest wildcard-stripped path wins and a
tie is broken in favour of `Allow` — i.e. the URL is allowed exactly when
some matching rule of maximal stripped length is an `Allow`. -/
def ruleDecisionSpec (rules : List RobotsRule) (path : String) : Bool :=
  match matchingRules rules path with
  | [] => true
  | m => m.any (fun r =>
      decide (stripLen r.path = (m.map (fun r₂ => stripLen r₂.path)).foldr max 0) && r.allow)

/-- Spec-side group selection, pass 1: the first group containing an exact
case-insensitive token match. -/
def findExactSpec (gs : List RobotsGroup) (ua : String) : Option RobotsGroup :=
  gs.find? (fun g => g.userAgents.any (fun a => lowerS a = lowerS ua))

/-- A token that counts for the substring pass: not the wildcard, and a
case-insensitive substring of the agent string. -/
def qualTok (ua : String) (a : String) : Bool :=
  decide (a ≠ "*") && isSubstr (lowerS a) (lowerS ua)

/-- The longest length among qualifying declared tokens. -/
def maxTokLen (gs : List RobotsGroup) (ua : String) : Nat :=
  (gs.map (fun g => ((g.userAgents.filter (qualTok ua)).map String.length).foldr max 0)).foldr
    max 0

/-- Spec-side pass 2: the group whose declared token is a substring of the
agent string with the longest token length (first such group). -/
def findSubSpec (gs : List RobotsGroup) (ua : String) : Option RobotsGroup :=
  if gs.any (fun g => g.userAgents.any (qualTok ua)) then
    gs.find? (fun g =>
      g.userAgents.any (fun a => qualTok ua a && decide (a.length = maxTokLen gs ua)))
  else none

/-- Spec-side pass 3: the wildcard (`*`) group. -/
def findWildSpec (gs : List RobotsGroup) : Option RobotsGroup :=
  gs.find? (fun g => g.userAgents.any (fun a => a = "*"))

/-- Spec-side group selection: exact case-insensitive match first, else the
longest substring token, else the wildcard group, else no group. -/
def findMatchingGroupSpec (gs : List RobotsGroup) (ua : String) : Option RobotsGroup :=
  match findExactSpec gs ua with
  | some g => some g
  | none =>
    match findSubSpec gs ua with
    | some g => some g
    | none => findWildSpec gs

/-! ### Code-side fold abbreviations and invariants used in the theorems -/

/-- The longest length among tokens of one list that qualify against the
(already lowercased) agent `u` in the code's partial-match fold. -/
def tokMax (u : String) (as : List String) : Nat :=
  ((as.filter (fun a => decide (a ≠ "*") && isSubstr a u)).map String.length).foldr max 0

/-- `tokMax` over a group's declared tokens. -/
def gMaxC (u : String) (g : RobotsGroup) : Nat := tokMax u g.userAgents

/-- The longest qualifying token length over all groups. -/
def globMax (u : String) (gs : List RobotsGroup) : Nat :=
  (gs.map (gMaxC u)).foldr max 0

/-- The best matching stripped length as the `isAllowed` fold tracks it
(`-1` when no rule matches). -/
def mMaxI (rules : List RobotsRule) (path : String) : Int :=
  ((matchingRules rules path).map (fun r => (stripLen r.path : Int))).foldr max (-1)

/-- Is some matching rule of stripped length `n` an `Allow`? -/
def hasAllowAt (rules : List RobotsRule) (path : String) (n : Int) : Bool :=
  rules.any (fun r =>
    pathMatches r.path path && decide ((stripLen r.path : Int) = n) && r.allow)

/-- Every fetch attempt bumps `pagesRequested` together with exactly one of
`pagesSuccessful`/`pagesFailed`. -/
def statsInv (s : LoopState) : Prop :=
  s.stats.pagesRequested = s.stats.pagesSuccessful + s.stats.pagesFailed

/-- The fetch log has no duplicates and is covered by the visited set. -/
def fetchInv (s : LoopState) : Prop :=
  s.fetchLog.Nodup ∧ ∀ u ∈ s.fetchLog, s.visited.contains u = true

/-- In a fresh crawl the checkpoint file exists exactly when at least ten
fetch attempts have been made. -/
def flagInv (s : LoopState) : Prop :=
  s.stateFileExists = decide (10 ≤ s.stats.pagesRequested)

/-- Every user-agent token of every group is non-empty and already
lowercase — exactly what `parseRobots` produces (it pushes
`value.toLowerCase()` only when the trimmed value is non-empty). -/
def lowTokens (gs : List RobotsGroup) : Prop :=
  ∀ g ∈ gs, ∀ a ∈ g.userAgents, a ≠ "" ∧ lowerS a = a

/-! ### List and string helper lemmas -/

theorem isPrefixB_refl (l : List Char) : isPrefixB l l = true := by
  induction l with
  | nil => rfl
  | cons a as ih => simp [isPrefixB, ih]

theorem isSubstrL_refl (l : List Char) : isSubstrL l l = true := by
  cases l with
  | nil => rfl
  | cons a as => simp [isSubstrL, isPrefixB_refl]

theorem isSubstr_refl (s : String) : isSubstr s s = true := isSubstrL_refl s.data

theorem isPrefixB_length_le {n h : List Char} (hp : isPrefixB n h = true) :
    n.length ≤ h.length := by
  induction n generalizing h with
  | nil => simp
  | cons a as ih =>
    cases h with
    | nil => simp [isPrefixB] at hp
    | cons b bs =>
      simp only [isPrefixB, Bool.and_eq_true] at hp
      simpa [Nat.succ_le_succ_iff] using ih hp.2

theorem isPrefixB_eq_of_length_eq {n h : List Char} (hp : isPrefixB n h = true)
    (hl : n.length = h.length) : n = h := by
  induction n generalizing h with
  | nil => cases h with
    | nil => rfl
    | cons b bs => simp at hl
  | cons a as ih =>
    cases h with
    | nil => simp [isPrefixB] at hp
    | cons b bs =>
      simp only [isPrefixB, Bool.and_eq_true, decide_eq_true_eq] at hp
      simp only [List.length_cons, Nat.succ_inj] at hl
      rw [hp.1, ih hp.2 hl]

theorem isSubstrL_length_le {n h : List Char} (hs : isSubstrL n h = true) :
    n.length ≤ h.length := by
  induction h with
  | nil => exact isPrefixB_length_le (by simpa [isSubstrL] using hs)
  | cons c t ih =>
    simp only [isSubstrL, Bool.or_eq_true] at hs
    rcases hs with hs | hs
    · exact isPrefixB_length_le hs
    · exact (ih hs).trans (by simp)

theorem isSubstrL_eq_of_length_eq {n h : List Char} (hs : isSubstrL n h = true)
    (hl : n.length = h.length) : n = h := by
  cases h with
  | nil => exact isPrefixB_eq_of_length_eq (by simpa [isSubstrL] using hs) hl
  | cons c t =>
    simp only [isSubstrL, Bool.or_eq_true] at hs
    rcases hs with hs | hs
    · exact isPrefixB_eq_of_length_eq hs hl
    · have h1 := isSubstrL_length_le hs
      simp only [List.length_cons] at hl
      omega

/-- `takeWhile` over an append whose first block satisfies the predicate. -/
theorem twApp (p : Char → Bool) (l₁ l₂ : List Char) (h : ∀ c ∈ l₁, p c = true) :
    (l₁ ++ l₂).takeWhile p = l₁ ++ l₂.takeWhile p := by
  induction l₁ with
  | nil => rfl
  | cons a as ih =>
    have htail : ∀ c ∈ as, p c = true := fun c hc => h c (List.mem_cons_of_mem a hc)
    rw [List.cons_append, List.takeWhile_cons, h a (List.mem_cons_self a as)]
    rw [if_pos rfl, ih htail, List.cons_append]

/-- `dropWhile` over an append whose first block satisfies the predicate. -/
theorem dwApp (p : Char → Bool) (l₁ l₂ : List Char) (h : ∀ c ∈ l₁, p c = true) :
    (l₁ ++ l₂).dropWhile p = l₂.dropWhile p := by
  induction l₁ with
  | nil => rfl
  | cons a as ih =>
    have htail : ∀ c ∈ as, p c = true := fun c hc => h c (List.mem_cons_of_mem a hc)
    rw [List.cons_append, List.dropWhile_cons, h a (List.mem_cons_self a as)]
    rw [if_pos rfl]
    exact ih htail

theorem takeWhile_all {p : Char → Bool} {l : List Char} (h : ∀ c ∈ l, p c = true) :
    l.takeWhile p = l := by
  simpa using twApp p l [] h

theorem dropWhile_all {p : Char → Bool} {l : List Char} (h : ∀ c ∈ l, p c = true) :
    l.dropWhile p = [] := by
  simpa using dwApp p l [] h

theorem mem_takeWhile_sat {p : Char → Bool} {l : List Char} {c : Char}
    (h : c ∈ l.takeWhile p) : p c = true := by
  induction l with
  | nil => simp [List.takeWhile] at h
  | cons a as ih =>
    by_cases hp : p a = true
    · simp only [List.takeWhile_cons, hp, if_true, List.mem_cons] at h
      rcases h with rfl | h
      · exact hp
      · exact ih h
    · simp [List.takeWhile_cons, hp] at h

/-! ### Character facts -/

theorem char_eq_of_toNat_eq {c d : Char} (h : c.toNat = d.toNat) : c = d := by
  have h2 := congrArg Char.ofNat h
  simpa [Char.ofNat_toNat] using h2

theorem toLower_toNat_of_upper {c : Char} (h : 65 ≤ c.toNat ∧ c.toNat ≤ 90) :
    (Char.toLower c).toNat = c.toNat + 32 := by
  unfold Char.toLower
  rw [if_pos h]
  have hv : (c.toNat + 32).isValidChar := by
    left; omega
  rw [Char.ofNat, dif_pos hv]
  rfl

theorem toLower_eq_self {c : Char} (h : ¬(65 ≤ c.toNat ∧ c.toNat ≤ 90)) :
    Char.toLower c = c := by
  unfold Char.toLower
  rw [if_neg h]

theorem toLower_toLower (c : Char) : c.toLower.toLower = c.toLower := by
  by_cases h : 65 ≤ c.toNat ∧ c.toNat ≤ 90
  · have ht := toLower_toNat_of_upper h
    exact toLower_eq_self (by omega)
  · rw [toLower_eq_self h, toLower_eq_self h]

theorem lowerL_idem (l : List Char) : lowerL (lowerL l) = lowerL l := by
  simp [lowerL, List.map_map, Function.comp_def, toLower_toLower]

theorem lowerL_lower_mem {l : List Char} {c : Char} (h : c ∈ lowerL l) :
    c.toLower = c := by
  simp only [lowerL, List.mem_map] at h
  obtain ⟨d, _, rfl⟩ := h
  exact toLower_toLower d

theorem lowerL_eq_self_of_mem {l : List Char} (h : ∀ c ∈ l, c.toLower = c) :
    lowerL l = l := by
  induction l with
  | nil => rfl
  | cons a as ih =>
    simp only [lowerL, List.map_cons]
    rw [h a (by simp)]
    have h2 := ih (fun c hc => h c (by simp [hc]))
    simpa [lowerL] using h2

theorem toLower_toNat_cases (c : Char) :
    ((Char.toLower c).toNat = c.toNat + 32 ∧ 65 ≤ c.toNat ∧ c.toNat ≤ 90) ∨
    (Char.toLower c = c) := by
  by_cases h : 65 ≤ c.toNat ∧ c.toNat ≤ 90
  · exact Or.inl ⟨toLower_toNat_of_upper h, h⟩
  · exact Or.inr (toLower_eq_self h)

theorem letterB_toLower {c : Char} (h : letterB c = true) : letterB c.toLower = true := by
  simp only [letterB, decide_eq_true_eq] at h ⊢
  rcases toLower_toNat_cases c with ⟨ht, hr⟩ | he
  · omega
  · rw [he]; exact h

theorem digitB_toLower {c : Char} (h : digitB c = true) : digitB c.toLower = true := by
  simp only [digitB, decide_eq_true_eq] at h
  rw [toLower_eq_self (by omega)]
  simpa [digitB]

theorem schemeCharOk_toLower {c : Char} (h : schemeCharOk c = true) :
    schemeCharOk c.toLower = true := by
  simp only [schemeCharOk, Bool.or_eq_true] at h
  rcases h with (((hl | hd) | hp) | hm) | hd2
  · simp [schemeCharOk, letterB_toLower hl]
  · simp [schemeCharOk, digitB_toLower hd]
  · simp only [decide_eq_true_eq] at hp
    subst hp
    rw [toLower_eq_self (by decide)]
    decide
  · simp only [decide_eq_true_eq] at hm
    subst hm
    rw [toLower_eq_self (by decide)]
    decide
  · simp only [decide_eq_true_eq] at hd2
    subst hd2
    rw [toLower_eq_self (by decide)]
    decide

theorem schemeOk_lowerL {l : List Char} (h : schemeOk l = true) :
    schemeOk (lowerL l) = true := by
  cases l with
  | nil => simp [schemeOk] at h
  | cons c cs =>
    simp only [schemeOk, Bool.and_eq_true, List.all_eq_true] at h
    simp only [lowerL, List.map_cons, schemeOk, Bool.and_eq_true, List.all_eq_true]
    refine ⟨letterB_toLower h.1, ?_⟩
    intro d hd
    simp only [List.mem_map] at hd
    obtain ⟨e, he, rfl⟩ := hd
    exact schemeCharOk_toLower (h.2 e he)

theorem hostCharOk_of_range {d : Char} (h1 : 97 ≤ d.toNat) (h2 : d.toNat ≤ 122) :
    hostCharOk d = true := by
  simp only [hostCharOk, Bool.not_eq_true', Bool.or_eq_false_iff,
    decide_eq_false_iff_not]
  refine ⟨⟨⟨⟨⟨⟨⟨⟨?_, ?_⟩, ?_⟩, ?_⟩, ?_⟩, ?_⟩, ?_⟩, ?_⟩, ?_⟩ <;>
    (rintro rfl; revert h1 h2; decide)

theorem hostCharOk_toLower {c : Char} (h : hostCharOk c = true) :
    hostCharOk c.toLower = true := by
  rcases toLower_toNat_cases c with ⟨ht, hr⟩ | he
  · exact hostCharOk_of_range (by omega) (by omega)
  · rw [he]; exact h

theorem hostOk_iff (l : List Char) :
    hostOk l = true ↔ l ≠ [] ∧ ∀ c ∈ l, hostCharOk c = true := by
  cases l <;> simp [hostOk, List.all_eq_true]

theorem hostOk_lowerL {l : List Char} (h : hostOk l = true) :
    hostOk (lowerL l) = true := by
  rw [hostOk_iff] at h ⊢
  constructor
  · simp only [lowerL]
    intro hc
    exact h.1 (List.map_eq_nil_iff.mp hc)
  · intro d hd
    simp only [lowerL, List.mem_map] at hd
    obtain ⟨e, he, rfl⟩ := hd
    exact hostCharOk_toLower (h.2 e he)

/-! ### Round-trip: parsing a serialised canonical URL -/

theorem ne_of_sat_not {q : Char → Bool} {c x : Char} (hc : q c = true) (hx : q x = false) :
    c ≠ x := by
  rintro rfl
  rw [hc] at hx
  exact absurd hx (by simp)

theorem dropWhile_head_false {p : Char → Bool} {l : List Char} {c : Char} {t : List Char}
    (h : l.dropWhile p = c :: t) : p c = false := by
  induction l with
  | nil => simp [List.dropWhile] at h
  | cons a as ih =>
    cases hpa : p a with
    | true =>
      rw [List.dropWhile_cons, hpa, if_pos rfl] at h
      exact ih h
    | false =>
      rw [List.dropWhile_cons, hpa] at h
      simp only [Bool.false_eq_true, if_false] at h
      obtain ⟨rfl, rfl⟩ := List.cons.inj h
      exact hpa

theorem notDelim3_iff (c : Char) :
    notDelim3 c = true ↔ c ≠ '/' ∧ c ≠ '?' ∧ c ≠ '#' := by
  simp [notDelim3, not_or, and_assoc]

theorem notDelim2_iff (c : Char) :
    notDelim2 c = true ↔ c ≠ '?' ∧ c ≠ '#' := by
  simp [notDelim2, not_or]

theorem scheme_ne_colon {l : List Char} (h : schemeOk l = true) :
    ∀ c ∈ l, (fun c => decide (c ≠ ':')) c = true := by
  cases l with
  | nil => intro c hc; simp at hc
  | cons a as =>
    simp only [schemeOk, Bool.and_eq_true, List.all_eq_true] at h
    intro c hc
    rcases List.mem_cons.mp hc with rfl | hc
    · simpa using ne_of_sat_not h.1 (by decide)
    · simpa using ne_of_sat_not (h.2 c hc) (by decide)

theorem host_notDelim3 {l : List Char} (h : hostOk l = true) :
    ∀ c ∈ l, notDelim3 c = true := by
  intro c hc
  have h2 := ((hostOk_iff l).mp h).2 c hc
  exact (notDelim3_iff c).mpr
    ⟨ne_of_sat_not h2 (by decide), ne_of_sat_not h2 (by decide), ne_of_sat_not h2 (by decide)⟩

theorem host_ne_colon {l : List Char} (h : hostOk l = true) :
    ∀ c ∈ l, (fun c => decide (c ≠ ':')) c = true := by
  intro c hc
  have h2 := ((hostOk_iff l).mp h).2 c hc
  simpa using ne_of_sat_not h2 (by decide)

theorem digits_notDelim3 {l : List Char} (h : l.all digitB = true) :
    ∀ c ∈ l, notDelim3 c = true := by
  intro c hc
  have h2 := (List.all_eq_true.mp h) c hc
  exact (notDelim3_iff c).mpr
    ⟨ne_of_sat_not h2 (by decide), ne_of_sat_not h2 (by decide), ne_of_sat_not h2 (by decide)⟩

/-- Round trip through `parseTail` for a canonical path and query. -/
theorem parseTail_rt {path : List Char} {q : Option (List Char)} {p' : List Char}
    (hp : path = '/' :: p') (hpc : ∀ c ∈ path, notDelim2 c = true)
    (hq : ∀ x, q = some x → ∀ c ∈ x, c ≠ '#') :
    parseTail (path ++ queryL q) = (path, q, none) := by
  subst hp
  have htw : ('/' :: p' ++ queryL q).takeWhile notDelim2 =
      ('/' :: p') ++ (queryL q).takeWhile notDelim2 := twApp _ _ _ hpc
  have hdw : ('/' :: p' ++ queryL q).dropWhile notDelim2 =
      (queryL q).dropWhile notDelim2 := dwApp _ _ _ hpc
  simp only [List.cons_append] at htw hdw
  rw [parseTail.eq_def]
  simp only [List.cons_append]
  rw [if_neg (by decide), if_neg (by decide)]
  cases q with
  | none =>
    simp only [queryL, List.append_nil] at htw hdw ⊢
    rw [htw, hdw]
    simp [List.takeWhile, List.dropWhile]
  | some x =>
    simp only [queryL] at htw hdw ⊢
    rw [htw, hdw]
    have hx : ∀ c ∈ x, (fun c => decide (c ≠ '#')) c = true := by
      intro c hc
      simpa using hq x rfl c hc
    have h1 : ('?' :: x).takeWhile notDelim2 = [] := by
      simp [List.takeWhile, notDelim2]
    have h2 : ('?' :: x).dropWhile notDelim2 = '?' :: x := by
      simp [List.dropWhile, notDelim2]
    rw [h1, h2]
    simp only [List.append_nil]
    rw [if_pos trivial]
    rw [takeWhile_all hx, dropWhile_all hx]
    rfl

/-- `parseHostPort` on a bare canonical host. -/
theorem parseHostPort_none_rt {sch host : List Char} (hhost : hostOk host = true)
    (hhostl : lowerL host = host) :
    parseHostPort sch host = some (host, none) := by
  rw [parseHostPort.eq_def]
  rw [takeWhile_all (host_ne_colon hhost), dropWhile_all (host_ne_colon hhost)]
  rw [if_pos hhost, hhostl]

/-- `parseHostPort` on a canonical host followed by a canonical port. -/
theorem parseHostPort_some_rt {sch host ds : List Char} (hhost : hostOk host = true)
    (hhostl : lowerL host = host) (hds : ds.all digitB = true)
    (hcanon : canonPort sch ds = some ds) :
    parseHostPort sch (host ++ ':' :: ds) = some (host, some ds) := by
  rw [parseHostPort.eq_def]
  rw [twApp _ _ _ (host_ne_colon hhost), dwApp _ _ _ (host_ne_colon hhost)]
  have h1 : (':' :: ds).takeWhile (· ≠ ':') = [] := by
    simp [List.takeWhile]
  have h2 : (':' :: ds).dropWhile (· ≠ ':') = ':' :: ds := by
    simp [List.dropWhile]
  rw [h1, h2, List.append_nil, if_pos hhost]
  dsimp only
  rw [if_pos rfl, if_pos hds, hhostl, hcanon]

/-- Round trip through `parseAfterScheme` for canonical components. -/
theorem parseAfterScheme_rt {sch host : List Char} {port : Option (List Char)}
    {path : List Char} {query : Option (List Char)} {p' : List Char}
    (hhost : hostOk host = true) (hhostl : lowerL host = host)
    (hport : ∀ ds, port = some ds → canonPort sch ds = some ds ∧ ds.all digitB = true)
    (hpath : path = '/' :: p') (hpathc : ∀ c ∈ path, notDelim2 c = true)
    (hquery : ∀ x, query = some x → ∀ c ∈ x, c ≠ '#') :
    parseAfterScheme sch (host ++ (portL port ++ (path ++ queryL query))) =
      some ⟨sch, host, port, path, query, none⟩ := by
  have hpt := parseTail_rt hpath hpathc hquery
  cases port with
  | none =>
    simp only [portL, List.nil_append]
    have hTW : (host ++ (path ++ queryL query)).takeWhile notDelim3 = host := by
      rw [twApp _ _ _ (host_notDelim3 hhost), hpath]
      simp [List.takeWhile, notDelim3]
    have hDW : (host ++ (path ++ queryL query)).dropWhile notDelim3 = path ++ queryL query := by
      rw [dwApp _ _ _ (host_notDelim3 hhost), hpath]
      simp [List.dropWhile, notDelim3]
    rw [parseAfterScheme.eq_def, hTW, hDW, parseHostPort_none_rt hhost hhostl, hpt]
  | some ds =>
    have hds := hport ds rfl
    simp only [portL]
    have hTW : (host ++ (':' :: ds ++ (path ++ queryL query))).takeWhile notDelim3 =
        host ++ ':' :: ds := by
      rw [twApp _ _ _ (host_notDelim3 hhost)]
      have : (':' :: ds ++ (path ++ queryL query)).takeWhile notDelim3 =
          ':' :: ((ds ++ (path ++ queryL query)).takeWhile notDelim3) := by
        simp [List.takeWhile, notDelim3]
      rw [this, twApp _ _ _ (digits_notDelim3 hds.2), hpath]
      simp [List.takeWhile, notDelim3]
    have hDW : (host ++ (':' :: ds ++ (path ++ queryL query))).dropWhile notDelim3 =
        path ++ queryL query := by
      rw [dwApp _ _ _ (host_notDelim3 hhost)]
      have : (':' :: ds ++ (path ++ queryL query)).dropWhile notDelim3 =
          (ds ++ (path ++ queryL query)).dropWhile notDelim3 := by
        simp [List.dropWhile, notDelim3]
      rw [this, dwApp _ _ _ (digits_notDelim3 hds.2), hpath]
      simp [List.dropWhile, notDelim3]
    rw [parseAfterScheme.eq_def, hTW, hDW, parseHostPort_some_rt hhost hhostl hds.2 hds.1, hpt]

/-- Parsing a serialised canonical URL recovers its components exactly. -/
theorem parse_serialize {u : JsUrl} (hwf : WFUrl u) (hf : u.frag = none) :
    jsUrlParseL (serializeL u) = some u := by
  obtain ⟨sch, host, port, path, query, frag⟩ := u
  obtain ⟨hsch, hschl, hhost, hhostl, hport, ⟨p', hpath⟩, hpathc, hquery⟩ := hwf
  simp only at hsch hschl hhost hhostl hport hpath hpathc hquery hf
  subst hf
  have hser : serializeL ⟨sch, host, port, path, query, none⟩ =
      sch ++ ':' :: '/' :: '/' :: (host ++ (portL port ++ (path ++ queryL query))) := by
    simp [serializeL, fragL, List.append_assoc]
  rw [hser]
  have hTW : (sch ++ ':' :: '/' :: '/' ::
      (host ++ (portL port ++ (path ++ queryL query)))).takeWhile (· ≠ ':') = sch := by
    rw [twApp _ _ _ (scheme_ne_colon hsch)]
    simp [List.takeWhile]
  have hDW : (sch ++ ':' :: '/' :: '/' ::
      (host ++ (portL port ++ (path ++ queryL query)))).dropWhile (· ≠ ':') =
      ':' :: '/' :: '/' :: (host ++ (portL port ++ (path ++ queryL query))) := by
    rw [dwApp _ _ _ (scheme_ne_colon hsch)]
    simp [List.dropWhile]
  rw [jsUrlParseL.eq_def, hDW, hTW]
  dsimp only
  rw [if_pos ⟨rfl, rfl, rfl⟩, if_pos hsch, hschl]
  exact parseAfterScheme_rt hhost hhostl hport hpath hpathc hquery

/-! ### Query pair lists: splitting, joining, sorting -/

theorem splitAmp_ne_nil (q : List Char) : splitAmp q ≠ [] := by
  cases q with
  | nil => simp [splitAmp]
  | cons c t =>
    rw [splitAmp.eq_def]
    dsimp only
    by_cases hc : c = '&'
    · simp [hc]
    · rw [if_neg hc]
      rcases e : splitAmp t with _ | ⟨h, r⟩ <;> simp

theorem mem_splitAmp_subset {q seg : List Char} (h : seg ∈ splitAmp q) :
    ∀ c ∈ seg, c ∈ q := by
  induction q generalizing seg with
  | nil =>
    simp only [splitAmp, List.mem_singleton] at h
    subst h
    simp
  | cons a t ih =>
    rw [splitAmp.eq_def] at h
    dsimp only at h
    by_cases ha : a = '&'
    · rw [if_pos ha] at h
      rcases List.mem_cons.mp h with rfl | h
      · simp
      · exact fun c hc => List.mem_cons_of_mem _ (ih h c hc)
    · rw [if_neg ha] at h
      rcases e : splitAmp t with _ | ⟨hd, r⟩
      · exact absurd e (splitAmp_ne_nil t)
      · rw [e] at h
        rcases List.mem_cons.mp h with rfl | h
        · intro c hc
          rcases List.mem_cons.mp hc with rfl | hc
          · simp
          · exact List.mem_cons_of_mem _ (ih (e ▸ List.mem_cons_self hd r) c hc)
        · exact fun c hc => List.mem_cons_of_mem _ (ih (e ▸ List.mem_cons_of_mem hd h) c hc)

theorem mem_splitAmp_no_amp {q seg : List Char} (h : seg ∈ splitAmp q) :
    ∀ c ∈ seg, c ≠ '&' := by
  induction q generalizing seg with
  | nil =>
    simp only [splitAmp, List.mem_singleton] at h
    subst h
    simp
  | cons a t ih =>
    rw [splitAmp.eq_def] at h
    dsimp only at h
    by_cases ha : a = '&'
    · rw [if_pos ha] at h
      rcases List.mem_cons.mp h with rfl | h
      · simp
      · exact ih h
    · rw [if_neg ha] at h
      rcases e : splitAmp t with _ | ⟨hd, r⟩
      · exact absurd e (splitAmp_ne_nil t)
      · rw [e] at h
        rcases List.mem_cons.mp h with rfl | h
        · intro c hc
          rcases List.mem_cons.mp hc with rfl | hc
          · exact ha
          · exact ih (e ▸ List.mem_cons_self hd r) c hc
        · exact ih (e ▸ List.mem_cons_of_mem hd h)

/-- `splitAmp` of an `&`-free list is that single segment. -/
theorem splitAmp_no_amp {s : List Char} (h : ∀ c ∈ s, c ≠ '&') :
    splitAmp s = [s] := by
  induction s with
  | nil => rfl
  | cons c t ih =>
    rw [splitAmp.eq_def]
    dsimp only
    rw [if_neg (h c (by simp))]
    rw [ih (fun d hd => h d (by simp [hd]))]

/-- `splitAmp` across a literal `&` after an `&`-free first segment. -/
theorem splitAmp_append_amp {s r : List Char} (h : ∀ c ∈ s, c ≠ '&') :
    splitAmp (s ++ '&' :: r) = s :: splitAmp r := by
  induction s with
  | nil => simp [splitAmp]
  | cons c t ih =>
    rw [List.cons_append, splitAmp.eq_def]
    dsimp only
    rw [if_neg (h c (by simp))]
    rw [ih (fun d hd => h d (by simp [hd]))]

theorem pairOfSeg_rt {k v : List Char} (h : ∀ c ∈ k, c ≠ '=') :
    pairOfSeg (k ++ '=' :: v) = (k, v) := by
  have hk : ∀ c ∈ k, (fun c => decide (c ≠ '=')) c = true := by
    intro c hc; simpa using h c hc
  unfold pairOfSeg
  rw [twApp _ _ _ hk, dwApp _ _ _ hk]
  simp [List.takeWhile, List.dropWhile]

/-- Every pair `parsePairs` produces has an `&`/`=`-free name and an
`&`-free value. -/
theorem parsePairs_wf {q : List Char} :
    ∀ p ∈ parsePairs q, (∀ c ∈ p.1, c ≠ '&' ∧ c ≠ '=') ∧ (∀ c ∈ p.2, c ≠ '&') := by
  intro p hp
  simp only [parsePairs, List.mem_filterMap] at hp
  obtain ⟨seg, hseg, hif⟩ := hp
  by_cases hne : seg = []
  · simp [hne] at hif
  · rw [if_neg hne] at hif
    obtain rfl := Option.some.inj hif
    constructor
    · intro c hc
      have hmem : c ∈ seg := (List.takeWhile_sublist _).subset hc
      refine ⟨mem_splitAmp_no_amp hseg c hmem, ?_⟩
      exact ne_of_eq_of_ne (rfl) (by simpa using mem_takeWhile_sat hc)
    · intro c hc
      unfold pairOfSeg at hc
      simp only at hc
      rcases e : seg.dropWhile (· ≠ '=') with _ | ⟨d, v⟩
      · rw [e] at hc; simp at hc
      · rw [e] at hc
        dsimp only at hc
        by_cases hd : d = '='
        · rw [if_pos hd] at hc
          have hmem : c ∈ seg := (List.dropWhile_sublist _).subset (e ▸ List.mem_cons_of_mem d hc)
          exact mem_splitAmp_no_amp hseg c hmem
        · rw [if_neg hd] at hc; simp at hc

/-- Reparsing a serialised pair list recovers it verbatim. -/
theorem parsePairs_serializePairs {ps : List (List Char × List Char)}
    (h : ∀ p ∈ ps, (∀ c ∈ p.1, c ≠ '&' ∧ c ≠ '=') ∧ (∀ c ∈ p.2, c ≠ '&')) :
    parsePairs (serializePairs ps) = ps := by
  induction ps with
  | nil => rfl
  | cons p rest ih =>
    obtain ⟨hk, hv⟩ := h p (by simp)
    have hseg : ∀ c ∈ p.1 ++ '=' :: p.2, c ≠ '&' := by
      intro c hc
      rcases List.mem_append.mp hc with hc | hc
      · exact (hk c hc).1
      · rcases List.mem_cons.mp hc with rfl | hc
        · simp
        · exact hv c hc
    cases rest with
    | nil =>
      simp only [serializePairs, List.map_cons, List.map_nil, joinAmp]
      unfold parsePairs
      rw [splitAmp_no_amp hseg]
      have hne : p.1 ++ '=' :: p.2 ≠ [] := by simp
      simp only [List.filterMap, if_neg hne]
      rw [pairOfSeg_rt (fun c hc => (hk c hc).2)]
    | cons p2 rest2 =>
      have hrest := ih (fun x hx => h x (by simp [hx]))
      simp only [serializePairs, List.map_cons, joinAmp] at hrest ⊢
      unfold parsePairs at hrest ⊢
      rw [splitAmp_append_amp hseg]
      have hne : p.1 ++ '=' :: p.2 ≠ [] := by simp
      rw [List.filterMap_cons, if_neg hne]
      rw [pairOfSeg_rt (fun c hc => (hk c hc).2)]
      rw [hrest]

theorem lexLe_total (a b : List Char) : lexLe a b = true ∨ lexLe b a = true := by
  induction a generalizing b with
  | nil => left; rfl
  | cons x xs ih =>
    cases b with
    | nil => right; rfl
    | cons y ys =>
      simp only [lexLe, Bool.or_eq_true, Bool.and_eq_true, decide_eq_true_eq]
      rcases Nat.lt_trichotomy x.toNat y.toNat with hlt | heq | hgt
      · left; left; exact hlt
      · have hxy : x = y := char_eq_of_toNat_eq heq
        subst hxy
        rcases ih ys with h | h
        · left; right; exact ⟨rfl, h⟩
        · right; right; exact ⟨rfl, h⟩
      · right; left; exact hgt

theorem insPair_sorted {x : List Char × List Char} {l : List (List Char × List Char)}
    (h : l.Chain' (fun a b => lexLe a.1 b.1 = true)) :
    (insPair x l).Chain' (fun a b => lexLe a.1 b.1 = true) := by
  induction l with
  | nil => simp [insPair]
  | cons y ys ih =>
    rw [insPair.eq_def]
    dsimp only
    by_cases hxy : lexLe x.1 y.1 = true
    · rw [if_pos hxy]
      exact List.Chain'.cons hxy h
    · rw [if_neg hxy]
      have hyx : lexLe y.1 x.1 = true := by
        rcases lexLe_total x.1 y.1 with h1 | h1
        · exact absurd h1 hxy
        · exact h1
      have htail := ih (List.Chain'.tail h)
      cases ys with
      | nil => simpa [insPair] using List.chain'_pair.mpr hyx
      | cons z zs =>
        rw [insPair.eq_def] at htail ⊢
        dsimp only at htail ⊢
        by_cases hxz : lexLe x.1 z.1 = true
        · rw [if_pos hxz] at htail ⊢
          exact List.Chain'.cons hyx htail
        · rw [if_neg hxz] at htail ⊢
          have hyz : lexLe y.1 z.1 = true := (List.chain'_cons.mp h).1
          exact List.Chain'.cons hyz htail

theorem sortPairs_sorted (l : List (List Char × List Char)) :
    (sortPairs l).Chain' (fun a b => lexLe a.1 b.1 = true) := by
  induction l with
  | nil => simp [sortPairs]
  | cons x xs ih => exact insPair_sorted ih

theorem sortPairs_eq_of_sorted {l : List (List Char × List Char)}
    (h : l.Chain' (fun a b => lexLe a.1 b.1 = true)) : sortPairs l = l := by
  induction l with
  | nil => rfl
  | cons x xs ih =>
    have htail := ih (List.Chain'.tail h)
    simp only [sortPairs]
    rw [htail]
    cases xs with
    | nil => rfl
    | cons y ys =>
      have hxy : lexLe x.1 y.1 = true := (List.chain'_cons.mp h).1
      simp [insPair, hxy]

theorem sortPairs_idem (l : List (List Char × List Char)) :
    sortPairs (sortPairs l) = sortPairs l :=
  sortPairs_eq_of_sorted (sortPairs_sorted l)

theorem mem_insPair {x y : List Char × List Char} {l : List (List Char × List Char)} :
    y ∈ insPair x l ↔ y = x ∨ y ∈ l := by
  induction l with
  | nil => simp [insPair]
  | cons z zs ih =>
    rw [insPair.eq_def]
    dsimp only
    by_cases hxz : lexLe x.1 z.1 = true
    · rw [if_pos hxz]
      simp [or_comm, or_assoc, or_left_comm]
    · rw [if_neg hxz]
      simp only [List.mem_cons, ih]
      tauto

theorem mem_sortPairs {x : List Char × List Char} {l : List (List Char × List Char)} :
    x ∈ sortPairs l ↔ x ∈ l := by
  induction l with
  | nil => simp [sortPairs]
  | cons y ys ih =>
    simp only [sortPairs, mem_insPair, ih, List.mem_cons]

/-- `normQuery` is idempotent. -/
theorem normQuery_idem (q : Option (List Char)) :
    normQuery (normQuery q) = normQuery q := by
  have hstep : ∀ y, normQuery (some y) =
      match sortPairs (parsePairs y) with
      | [] => none
      | ps => some (serializePairs ps) := fun y => rfl
  cases q with
  | none => rfl
  | some x =>
    rcases e : sortPairs (parsePairs x) with _ | ⟨p, ps⟩
    · rw [hstep x, e]
      rfl
    · have hwf : ∀ y ∈ p :: ps, (∀ c ∈ y.1, c ≠ '&' ∧ c ≠ '=') ∧ (∀ c ∈ y.2, c ≠ '&') := by
        intro y hy
        exact parsePairs_wf y (mem_sortPairs.mp (e ▸ hy))
      rw [hstep x, e]
      dsimp only
      rw [hstep, parsePairs_serializePairs hwf]
      rw [← e, sortPairs_idem, e]

/-! ### Character membership through serialised pairs -/

theorem mem_joinAmp {segs : List (List Char)} {c : Char} (h : c ∈ joinAmp segs) :
    (∃ s ∈ segs, c ∈ s) ∨ c = '&' := by
  induction segs with
  | nil => simp [joinAmp] at h
  | cons s rest ih =>
    cases rest with
    | nil =>
      simp only [joinAmp] at h
      exact Or.inl ⟨s, by simp, h⟩
    | cons s2 rest2 =>
      simp only [joinAmp, List.mem_append, List.mem_cons] at h
      rcases h with h | h | h
      · exact Or.inl ⟨s, by simp, h⟩
      · exact Or.inr h
      · rcases ih h with ⟨s', hs', hc⟩ | hc
        · exact Or.inl ⟨s', by simp [hs'], hc⟩
        · exact Or.inr hc

theorem mem_serializePairs {ps : List (List Char × List Char)} {c : Char}
    (h : c ∈ serializePairs ps) :
    (∃ p ∈ ps, c ∈ p.1 ∨ c ∈ p.2) ∨ c = '&' ∨ c = '=' := by
  rcases mem_joinAmp h with ⟨s, hs, hc⟩ | hc
  · simp only [List.mem_map] at hs
    obtain ⟨p, hp, rfl⟩ := hs
    rcases List.mem_append.mp hc with hc | hc
    · exact Or.inl ⟨p, hp, Or.inl hc⟩
    · rcases List.mem_cons.mp hc with rfl | hc
      · exact Or.inr (Or.inr rfl)
      · exact Or.inl ⟨p, hp, Or.inr hc⟩
  · exact Or.inr (Or.inl hc)

theorem parsePairs_subset {q : List Char} :
    ∀ p ∈ parsePairs q, (∀ c ∈ p.1, c ∈ q) ∧ (∀ c ∈ p.2, c ∈ q) := by
  intro p hp
  simp only [parsePairs, List.mem_filterMap] at hp
  obtain ⟨seg, hseg, hif⟩ := hp
  by_cases hne : seg = []
  · simp [hne] at hif
  · rw [if_neg hne] at hif
    obtain rfl := Option.some.inj hif
    constructor
    · intro c hc
      exact mem_splitAmp_subset hseg c ((List.takeWhile_sublist _).subset hc)
    · intro c hc
      unfold pairOfSeg at hc
      simp only at hc
      rcases e : seg.dropWhile (· ≠ '=') with _ | ⟨d, v⟩
      · rw [e] at hc; simp at hc
      · rw [e] at hc
        dsimp only at hc
        by_cases hd : d = '='
        · rw [if_pos hd] at hc
          exact mem_splitAmp_subset hseg c
            ((List.dropWhile_sublist _).subset (e ▸ List.mem_cons_of_mem d hc))
        · rw [if_neg hd] at hc; simp at hc

/-! ### Trailing-slash stripping -/

theorem endsSlash_iff (p : List Char) : endsSlash p = true ↔ ∃ q, p = q ++ ['/'] := by
  constructor
  · intro h
    rw [endsSlash.eq_def] at h
    rcases e : p.reverse with _ | ⟨c, t⟩
    · rw [e] at h; simp at h
    · rw [e] at h
      dsimp only at h
      have hc : c = '/' := by simpa using h
      subst hc
      refine ⟨t.reverse, ?_⟩
      have := congrArg List.reverse e
      simpa using this
  · rintro ⟨q, rfl⟩
    rw [endsSlash.eq_def, List.reverse_append]
    simp

theorem endsDblSlash_concat (q : List Char) : endsDblSlash (q ++ ['/']) = endsSlash q := by
  rw [endsDblSlash.eq_def, List.reverse_append]
  rcases e : q.reverse with _ | ⟨d, t⟩
  · rw [endsSlash.eq_def, e]
    rfl
  · rw [endsSlash.eq_def, e]
    dsimp only
    simp

theorem mem_dropLast {l : List Char} {c : Char} (h : c ∈ l.dropLast) : c ∈ l := by
  induction l with
  | nil => simp at h
  | cons a as ih =>
    cases as with
    | nil => simp [List.dropLast] at h
    | cons b bs =>
      rw [List.dropLast_cons₂] at h
      rcases List.mem_cons.mp h with rfl | h
      · simp
      · exact List.mem_cons_of_mem _ (ih h)

theorem stripSlash_idem {p : List Char} (h : endsDblSlash p = false) :
    stripSlash (stripSlash p) = stripSlash p := by
  by_cases hc : p ≠ ['/'] ∧ endsSlash p = true
  · have h1 : stripSlash p = p.dropLast := by
      rw [stripSlash, if_pos hc]
    obtain ⟨q, rfl⟩ := (endsSlash_iff p).mp hc.2
    rw [List.dropLast_concat] at h1
    rw [h1]
    rw [endsDblSlash_concat] at h
    rw [stripSlash, if_neg]
    rintro ⟨_, h2⟩
    rw [h] at h2
    exact absurd h2 (by simp)
  · have h1 : stripSlash p = p := by
      rw [stripSlash, if_neg hc]
    rw [h1, h1]

theorem stripSlash_head {p p' : List Char} (h : p = '/' :: p') :
    ∃ q', stripSlash p = '/' :: q' := by
  subst h
  by_cases hc : ('/' :: p') ≠ ['/'] ∧ endsSlash ('/' :: p') = true
  · rw [stripSlash, if_pos hc]
    cases p' with
    | nil => exact absurd rfl hc.1
    | cons a as => exact ⟨(a :: as).dropLast, rfl⟩
  · rw [stripSlash, if_neg hc]
    exact ⟨p', rfl⟩

theorem stripSlash_subset {p : List Char} : ∀ c ∈ stripSlash p, c ∈ p := by
  intro c hc
  unfold stripSlash at hc
  by_cases h : p ≠ ['/'] ∧ endsSlash p = true
  · rw [if_pos h] at hc
    exact mem_dropLast hc
  · rw [if_neg h] at hc
    exact hc

/-! ### Parse results are canonical -/

theorem canonPort_eq {sch ds x : List Char} (h : canonPort sch ds = some x) :
    x = ds ∧ canonPort sch ds = some ds := by
  unfold canonPort at h
  split_ifs at h with h1 h2 h3
  · obtain rfl := Option.some.inj h
    refine ⟨rfl, ?_⟩
    unfold canonPort
    rw [if_neg h1, if_neg h2, if_neg h3]

theorem parseHostPort_WF {sch auth : List Char} {h : List Char} {p : Option (List Char)}
    (hp : parseHostPort sch auth = some (h, p)) :
    hostOk h = true ∧ lowerL h = h ∧
    (∀ ds, p = some ds → canonPort sch ds = some ds ∧ ds.all digitB = true) := by
  unfold parseHostPort at hp
  split_ifs at hp with hok
  · rcases e : auth.dropWhile (· ≠ ':') with _ | ⟨c, ds⟩
    · rw [e] at hp
      dsimp only at hp
      obtain ⟨h1, h2⟩ := Prod.mk.inj (Option.some.inj hp)
      subst h1
      refine ⟨hostOk_lowerL hok, lowerL_idem _, ?_⟩
      intro ds hds
      rw [← h2] at hds
      simp at hds
    · rw [e] at hp
      dsimp only at hp
      split_ifs at hp with hc hdig
      · obtain ⟨h1, h2⟩ := Prod.mk.inj (Option.some.inj hp)
        subst h1
        refine ⟨hostOk_lowerL hok, lowerL_idem _, ?_⟩
        intro ds' hds'
        rw [← h2] at hds'
        obtain ⟨rfl, hcp⟩ := canonPort_eq hds'
        exact ⟨hcp, hdig⟩

/-- The three possible component triples `parseTail` yields on input whose
head (if any) is an authority terminator. -/
theorem parseTail_cases (r : List Char)
    (hr : ∀ c t, r = c :: t → notDelim3 c = false) :
    parseTail r = (['/'], none, none) ∨
    (∃ x : List Char, parseTail r = (['/'], none, some x)) ∨
    (∃ y : List Char, parseTail r =
      (['/'], some (List.takeWhile (· ≠ '#') y), fragAfter (List.dropWhile (· ≠ '#') y))) ∨
    (∃ t : List Char, r = '/' :: t ∧
      ((parseTail r).1 = ('/' :: t).takeWhile notDelim2 ∧
       ((parseTail r).2.1 = none ∨
        ∃ y : List Char, (parseTail r).2.1 = some (List.takeWhile (· ≠ '#') y)))) := by
  cases r with
  | nil => exact Or.inl rfl
  | cons c t =>
    have hcd := hr c t rfl
    have hor : c = '/' ∨ c = '?' ∨ c = '#' := by
      by_contra hnot
      push_neg at hnot
      simp [notDelim3, hnot.1, hnot.2.1, hnot.2.2] at hcd
    rcases hor with rfl | rfl | rfl
    · refine Or.inr (Or.inr (Or.inr ⟨t, rfl, ?_⟩))
      rw [parseTail.eq_def]
      dsimp only
      rw [if_neg (by decide), if_neg (by decide)]
      rcases e : ('/' :: t).dropWhile notDelim2 with _ | ⟨d, r₂⟩
      · exact ⟨rfl, Or.inl rfl⟩
      · dsimp only
        by_cases hd : d = '#'
        · rw [if_pos hd]
          exact ⟨rfl, Or.inl rfl⟩
        · rw [if_neg hd]
          by_cases hd2 : d = '?'
          · rw [if_pos hd2]
            exact ⟨rfl, Or.inr ⟨r₂, rfl⟩⟩
          · rw [if_neg hd2]
            exact ⟨rfl, Or.inl rfl⟩
    · refine Or.inr (Or.inr (Or.inl ⟨t, ?_⟩))
      rw [parseTail.eq_def]
      dsimp only
      rw [if_neg (by decide), if_pos rfl]
    · refine Or.inr (Or.inl ⟨t, ?_⟩)
      rw [parseTail.eq_def]
      dsimp only
      rw [if_pos rfl]

theorem parseTail_path_WF (r : List Char)
    (hr : ∀ c t, r = c :: t → notDelim3 c = false) :
    (∃ p', (parseTail r).1 = '/' :: p') ∧ (∀ c ∈ (parseTail r).1, notDelim2 c = true) ∧
    (∀ x, (parseTail r).2.1 = some x → ∀ c ∈ x, c ≠ '#') := by
  have hone : ∀ c ∈ (['/'] : List Char), notDelim2 c = true := by
    intro c hc
    rcases List.mem_singleton.mp hc with rfl
    decide
  rcases parseTail_cases r hr with he | ⟨x, he⟩ | ⟨y, he⟩ | ⟨t, rfl, h1, h2⟩
  · rw [he]
    exact ⟨⟨[], rfl⟩, hone, by intro x hx; simp at hx⟩
  · rw [he]
    exact ⟨⟨[], rfl⟩, hone, by intro x hx; simp at hx⟩
  · rw [he]
    refine ⟨⟨[], rfl⟩, hone, ?_⟩
    intro x hx
    obtain rfl := Option.some.inj hx
    intro c hc
    simpa using mem_takeWhile_sat hc
  · have hpa : ('/' :: t).takeWhile notDelim2 = '/' :: t.takeWhile notDelim2 := by
      simp [List.takeWhile, notDelim2]
    refine ⟨⟨t.takeWhile notDelim2, by rw [h1, hpa]⟩, ?_, ?_⟩
    · intro c hc
      rw [h1] at hc
      exact mem_takeWhile_sat hc
    · intro x hx
      rcases h2 with h2 | ⟨y, h2⟩
      · rw [h2] at hx; simp at hx
      · rw [h2] at hx
        obtain rfl := Option.some.inj hx
        intro c hc
        simpa using mem_takeWhile_sat hc

/-- Every successful parse yields a canonical component record. -/
theorem jsUrlParseL_WF {l : List Char} {u : JsUrl} (h : jsUrlParseL l = some u) :
    WFUrl u := by
  unfold jsUrlParseL at h
  rcases e : l.dropWhile (· ≠ ':') with _ | ⟨c₁, _ | ⟨c₂, _ | ⟨c₃, r⟩⟩⟩ <;> rw [e] at h
  · exact absurd h (by simp)
  · exact absurd h (by simp)
  · exact absurd h (by simp)
  · dsimp only at h
    split_ifs at h with hcond hsch
    · rcases e2 : parseHostPort (lowerL (l.takeWhile (· ≠ ':'))) (r.takeWhile notDelim3)
        with _ | ⟨hh, pp⟩
      · rw [parseAfterScheme.eq_def, e2] at h
        exact absurd h (by simp)
      · rw [parseAfterScheme.eq_def, e2] at h
        dsimp only at h
        obtain rfl := Option.some.inj h
        have hhp := parseHostPort_WF e2
        have hpt := parseTail_path_WF (r.dropWhile notDelim3)
          (fun c t e3 => dropWhile_head_false e3)
        exact ⟨schemeOk_lowerL hsch, lowerL_idem _, hhp.1, hhp.2.1, hhp.2.2,
          hpt.1, hpt.2.1, hpt.2.2⟩

theorem jsUrlParse_WF {s : String} {u : JsUrl} (h : jsUrlParse s = some u) : WFUrl u :=
  jsUrlParseL_WF h

/-- `normParts` preserves canonicality. -/
theorem normParts_WF {u : JsUrl} (h : WFUrl u) : WFUrl (normParts u) := by
  obtain ⟨hsch, hschl, hhost, hhostl, hport, ⟨p', hpath⟩, hpathc, hquery⟩ := h
  refine ⟨hsch, hschl, hostOk_lowerL hhost, lowerL_idem _, hport, stripSlash_head hpath, ?_, ?_⟩
  · intro c hc
    exact hpathc c (stripSlash_subset c hc)
  · intro x hx c hc
    have hqx : (normParts u).query = normQuery u.query := rfl
    rw [hqx] at hx
    rcases e : u.query with _ | ⟨q⟩
    · rw [e] at hx
      simp [normQuery] at hx
    · rw [e] at hx
      have hstep : normQuery (some q) =
          match sortPairs (parsePairs q) with
          | [] => none
          | ps => some (serializePairs ps) := rfl
      rw [hstep] at hx
      rcases e2 : sortPairs (parsePairs q) with _ | ⟨p, ps⟩ <;> rw [e2] at hx
      · simp at hx
      · dsimp only at hx
        obtain rfl := Option.some.inj hx
        rcases mem_serializePairs hc with ⟨pr, hpr, hcc⟩ | hc2 | hc2
        · have hin := mem_sortPairs.mp (e2 ▸ hpr)
          have hsub := parsePairs_subset pr hin
          rcases hcc with hcc | hcc
          · exact hquery q e c (hsub.1 c hcc)
          · exact hquery q e c (hsub.2 c hcc)
        · subst hc2; decide
        · subst hc2; decide

/-- `normParts` is idempotent when the path does not end in a double slash. -/
theorem normParts_idem {u : JsUrl} (hds : endsDblSlash u.path = false) :
    normParts (normParts u) = normParts u := by
  obtain ⟨sch, host, port, path, query, frag⟩ := u
  simp only at hds
  simp [normParts, stripSlash_idem hds, normQuery_idem, lowerL_idem]

/-! ### Crawl loop: step lemmas -/

theorem stepOnce_nil {cfg : SpiderConfig} {robots : Option (List RobotsGroup)}
    {env : String → FetchOutcome} {s : LoopState} (h : s.queue = []) :
    stepOnce cfg robots env s = s := by
  rw [stepOnce.eq_def, h]

theorem stepOnce_skip {cfg : SpiderConfig} {robots : Option (List RobotsGroup)}
    {env : String → FetchOutcome} {s : LoopState} {item : QueueItem} {rest : List QueueItem}
    (h : s.queue = item :: rest) (hs : skipCheck cfg robots s item = true) :
    stepOnce cfg robots env s = { s with queue := rest } := by
  rw [stepOnce.eq_def, h]
  dsimp only
  rw [if_pos hs]

theorem stepOnce_fetch {cfg : SpiderConfig} {robots : Option (List RobotsGroup)}
    {env : String → FetchOutcome} {s : LoopState} {item : QueueItem} {rest : List QueueItem}
    (h : s.queue = item :: rest) (hs : skipCheck cfg robots s item = false) :
    stepOnce cfg robots env s = applySleep (applyCheckpoint (applyFetch env item rest s)) := by
  rw [stepOnce.eq_def, h]
  dsimp only
  rw [if_neg (by simp [hs])]

theorem applySleep_parts (s : LoopState) :
    (applySleep s).queue = s.queue ∧ (applySleep s).visited = s.visited ∧
    (applySleep s).stats = s.stats ∧ (applySleep s).fetchLog = s.fetchLog ∧
    (applySleep s).stateFileExists = s.stateFileExists := by
  unfold applySleep
  split <;> exact ⟨rfl, rfl, rfl, rfl, rfl⟩

theorem applyCheckpoint_parts (s : LoopState) :
    (applyCheckpoint s).queue = s.queue ∧ (applyCheckpoint s).visited = s.visited ∧
    (applyCheckpoint s).stats = s.stats ∧ (applyCheckpoint s).fetchLog = s.fetchLog ∧
    (applyCheckpoint s).sleepCount = s.sleepCount := by
  unfold applyCheckpoint
  split <;> exact ⟨rfl, rfl, rfl, rfl, rfl⟩

theorem applyFetch_visited (env : String → FetchOutcome) (item : QueueItem)
    (rest : List QueueItem) (s : LoopState) :
    (applyFetch env item rest s).visited = normalizeUrl item.url :: s.visited := by
  unfold applyFetch
  rcases env (normalizeUrl item.url) <;> rfl

theorem applyFetch_fetchLog (env : String → FetchOutcome) (item : QueueItem)
    (rest : List QueueItem) (s : LoopState) :
    (applyFetch env item rest s).fetchLog = s.fetchLog ++ [normalizeUrl item.url] := by
  unfold applyFetch
  rcases env (normalizeUrl item.url) <;> rfl

theorem applyFetch_requested (env : String → FetchOutcome) (item : QueueItem)
    (rest : List QueueItem) (s : LoopState) :
    (applyFetch env item rest s).stats.pagesRequested = s.stats.pagesRequested + 1 := by
  unfold applyFetch
  rcases env (normalizeUrl item.url) <;> rfl

theorem applyFetch_counts (env : String → FetchOutcome) (item : QueueItem)
    (rest : List QueueItem) (s : LoopState) :
    (applyFetch env item rest s).stats.pagesSuccessful +
      (applyFetch env item rest s).stats.pagesFailed =
    s.stats.pagesSuccessful + s.stats.pagesFailed + 1 := by
  unfold applyFetch
  rcases env (normalizeUrl item.url) <;> dsimp only <;> omega

theorem applyFetch_queue_mem (env : String → FetchOutcome) (item : QueueItem)
    (rest : List QueueItem) (s : LoopState) :
    ∀ it ∈ (applyFetch env item rest s).queue,
      it ∈ rest ∨ (applyFetch env item rest s).visited.contains it.url = false := by
  intro it hit
  unfold applyFetch at hit ⊢
  rcases e : env (normalizeUrl item.url) with ⟨links, len, ty⟩ | ⟨m, st⟩ <;>
    simp only [e] at hit ⊢
  · rcases List.mem_append.mp hit with hit | hit
    · exact Or.inl hit
    · right
      simp only [List.mem_filterMap] at hit
      obtain ⟨link, hlink, hif⟩ := hit
      by_cases hv : (normalizeUrl item.url :: s.visited).contains (normalizeUrl link) = true
      · rw [if_pos hv] at hif
        simp at hif
      · rw [if_neg hv] at hif
        obtain rfl := Option.some.inj hif
        simpa using hv
  · exact Or.inl hit

theorem stepOnce_progress {cfg : SpiderConfig} {robots : Option (List RobotsGroup)}
    {env : String → FetchOutcome} {s : LoopState} {item : QueueItem} {rest : List QueueItem}
    (h : s.queue = item :: rest) :
    (stepOnce cfg robots env s).stats.pagesSuccessful = s.stats.pagesSuccessful + 1 ∨
    ((stepOnce cfg robots env s).stats.pagesSuccessful = s.stats.pagesSuccessful ∧
     (stepOnce cfg robots env s).queue.length = rest.length) := by
  by_cases hs : skipCheck cfg robots s item = true
  · rw [stepOnce_skip h hs]
    exact Or.inr ⟨rfl, rfl⟩
  · rw [stepOnce_fetch h ((Bool.not_eq_true _).mp hs)]
    have hst : (applySleep (applyCheckpoint (applyFetch env item rest s))).stats =
        (applyFetch env item rest s).stats := by
      rw [(applySleep_parts _).2.2.1, (applyCheckpoint_parts _).2.2.1]
    have hqu : (applySleep (applyCheckpoint (applyFetch env item rest s))).queue =
        (applyFetch env item rest s).queue := by
      rw [(applySleep_parts _).1, (applyCheckpoint_parts _).1]
    rcases e : env (normalizeUrl item.url) with ⟨links, len, ty⟩ | ⟨m, st⟩
    · left
      rw [hst]
      unfold applyFetch
      rw [e]
    · right
      rw [hst, hqu]
      unfold applyFetch
      rw [e]
      exact ⟨rfl, rfl⟩

theorem stepOnce_decrease {cfg : SpiderConfig} {robots : Option (List RobotsGroup)}
    {env : String → FetchOutcome} {s : LoopState}
    (hq : s.queue ≠ []) (hp : s.stats.pagesSuccessful < cfg.maxPages) :
    Prod.Lex (· < ·) (· < ·) (loopMeasure cfg (stepOnce cfg robots env s))
      (loopMeasure cfg s) := by
  rcases e : s.queue with _ | ⟨item, rest⟩
  · exact absurd e hq
  · rcases stepOnce_progress e with h1 | ⟨h1, h2⟩
    · unfold loopMeasure
      apply Prod.Lex.left
      rw [h1]
      omega
    · unfold loopMeasure
      rw [h1]
      apply Prod.Lex.right
      rw [h2, e]
      simp

theorem stepG_of_looping {cfg : SpiderConfig} {robots : Option (List RobotsGroup)}
    {env : String → FetchOutcome} {s : LoopState} (h : looping cfg s = true) :
    stepG cfg robots env s = stepOnce cfg robots env s := by
  unfold stepG
  rw [if_pos h]

theorem stepG_of_terminal {cfg : SpiderConfig} {robots : Option (List RobotsGroup)}
    {env : String → FetchOutcome} {s : LoopState} (h : looping cfg s = false) :
    stepG cfg robots env s = s := by
  unfold stepG
  rw [h]
  simp

theorem loop_reaches_terminal (cfg : SpiderConfig) (robots : Option (List RobotsGroup))
    (env : String → FetchOutcome) (s : LoopState) :
    ∃ n, looping cfg ((stepG cfg robots env)^[n] s) = false := by
  have wf : WellFounded (fun s₁ s₂ : LoopState =>
      Prod.Lex (· < ·) (· < ·) (loopMeasure cfg s₁) (loopMeasure cfg s₂)) :=
    InvImage.wf (loopMeasure cfg)
      (WellFounded.prod_lex Nat.lt_wfRel.wf Nat.lt_wfRel.wf)
  induction s using WellFounded.induction wf with
  | _ x IH =>
    by_cases h : looping cfg x = true
    · have hq : x.queue ≠ [] := by
        simp only [looping, Bool.and_eq_true, decide_eq_true_eq] at h
        intro hnil
        rw [hnil] at h
        simp at h
      have hp : x.stats.pagesSuccessful < cfg.maxPages := by
        simp only [looping, Bool.and_eq_true, decide_eq_true_eq] at h
        exact h.2
      obtain ⟨n, hn⟩ := IH (stepOnce cfg robots env x) (stepOnce_decrease hq hp)
      refine ⟨n + 1, ?_⟩
      rw [Function.iterate_succ_apply, stepG_of_looping h]
      exact hn
    · exact ⟨0, by simpa using h⟩

/-! ### Crawl loop: invariants -/

theorem statsInv_stepOnce {cfg : SpiderConfig} {robots : Option (List RobotsGroup)}
    {env : String → FetchOutcome} {s : LoopState} (h : statsInv s) :
    statsInv (stepOnce cfg robots env s) := by
  rcases e : s.queue with _ | ⟨item, rest⟩
  · rw [stepOnce_nil e]
    exact h
  · by_cases hs : skipCheck cfg robots s item = true
    · rw [stepOnce_skip e hs]
      exact h
    · rw [stepOnce_fetch e ((Bool.not_eq_true _).mp hs)]
      unfold statsInv at h ⊢
      rw [(applySleep_parts _).2.2.1, (applyCheckpoint_parts _).2.2.1]
      rw [applyFetch_requested]
      have := applyFetch_counts env item rest s
      omega

theorem fetchInv_stepOnce {cfg : SpiderConfig} {robots : Option (List RobotsGroup)}
    {env : String → FetchOutcome} {s : LoopState} (h : fetchInv s) :
    fetchInv (stepOnce cfg robots env s) := by
  rcases e : s.queue with _ | ⟨item, rest⟩
  · rw [stepOnce_nil e]
    exact h
  · by_cases hs : skipCheck cfg robots s item = true
    · rw [stepOnce_skip e hs]
      exact h
    · have hsf : skipCheck cfg robots s item = false := (Bool.not_eq_true _).mp hs
      have hnv : s.visited.contains (normalizeUrl item.url) = false := by
        unfold skipCheck at hsf
        simp only [Bool.or_eq_false_iff] at hsf
        exact hsf.1.1.1
      rw [stepOnce_fetch e hsf]
      unfold fetchInv at h ⊢
      rw [(applySleep_parts _).2.2.2.1, (applyCheckpoint_parts _).2.2.2.1,
        (applySleep_parts _).2.1, (applyCheckpoint_parts _).2.1,
        applyFetch_fetchLog, applyFetch_visited]
      constructor
      · rw [List.nodup_append]
        refine ⟨h.1, List.nodup_singleton _, ?_⟩
        intro a ha hmem
        rcases List.mem_singleton.mp hmem with rfl
        have h2 := h.2 _ ha
        rw [h2] at hnv
        exact absurd hnv (by simp)
      · intro u hu
        rcases List.mem_append.mp hu with hu | hu
        · have := h.2 u hu
          simp only [List.contains_cons]
          rw [this]
          simp
        · rcases List.mem_singleton.mp hu with rfl
          simp [List.contains_cons]

theorem applyFetch_flag (env : String → FetchOutcome) (item : QueueItem)
    (rest : List QueueItem) (s : LoopState) :
    (applyFetch env item rest s).stateFileExists = s.stateFileExists := by
  unfold applyFetch
  rcases env (normalizeUrl item.url) <;> rfl

theorem flagInv_stepOnce {cfg : SpiderConfig} {robots : Option (List RobotsGroup)}
    {env : String → FetchOutcome} {s : LoopState} (h : flagInv s) :
    flagInv (stepOnce cfg robots env s) := by
  rcases e : s.queue with _ | ⟨item, rest⟩
  · rw [stepOnce_nil e]
    exact h
  · by_cases hs : skipCheck cfg robots s item = true
    · rw [stepOnce_skip e hs]
      exact h
    · rw [stepOnce_fetch e ((Bool.not_eq_true _).mp hs)]
      unfold flagInv at h ⊢
      rw [(applySleep_parts _).2.2.2.2, (applySleep_parts _).2.2.1,
        (applyCheckpoint_parts _).2.2.1]
      have hreq := applyFetch_requested env item rest s
      have hflag := applyFetch_flag env item rest s
      unfold applyCheckpoint
      by_cases hmod : (applyFetch env item rest s).stats.pagesRequested % 10 = 0
      · rw [if_pos hmod]
        dsimp only
        rw [hreq] at hmod
        have h10 : 10 ≤ s.stats.pagesRequested + 1 := by omega
        rw [hreq]
        simp [h10]
      · rw [if_neg hmod]
        rw [hflag, h, hreq]
        rw [hreq] at hmod
        simp only [decide_eq_decide]
        omega

theorem stepG_pres {cfg : SpiderConfig} {robots : Option (List RobotsGroup)}
    {env : String → FetchOutcome} {P : LoopState → Prop}
    (hP : ∀ s, P s → P (stepOnce cfg robots env s)) :
    ∀ s, P s → P (stepG cfg robots env s) := by
  intro s h
  unfold stepG
  split
  · exact hP s h
  · exact h

theorem iterate_pres {cfg : SpiderConfig} {robots : Option (List RobotsGroup)}
    {env : String → FetchOutcome} {P : LoopState → Prop}
    (hP : ∀ s, P s → P (stepOnce cfg robots env s)) :
    ∀ n s, P s → P ((stepG cfg robots env)^[n] s) := by
  intro n
  induction n with
  | zero => intro s h; simpa using h
  | succ n ih =>
    intro s h
    rw [Function.iterate_succ_apply]
    exact ih _ (stepG_pres hP s h)

/-! ### Robots rule selection: the fold computes the spec's decision -/

theorem foldrI_lb (l : List Int) : -1 ≤ l.foldr max (-1) := by
  induction l with
  | nil => exact le_refl _
  | cons a t ih => exact le_trans ih (le_max_right a _)

theorem mMaxI_lb (rules : List RobotsRule) (path : String) : -1 ≤ mMaxI rules path :=
  foldrI_lb _

theorem mMaxI_nil (path : String) : mMaxI [] path = -1 := rfl

theorem mMaxI_cons (r : RobotsRule) (rules : List RobotsRule) (path : String) :
    mMaxI (r :: rules) path =
      if pathMatches r.path path = true then max (stripLen r.path : Int) (mMaxI rules path)
      else mMaxI rules path := by
  unfold mMaxI matchingRules
  rw [List.filter_cons]
  by_cases hm : pathMatches r.path path = true
  · rw [if_pos (by simpa using hm), if_pos hm]
    rfl
  · rw [if_neg (by simpa using hm), if_neg hm]

theorem hasAllowAt_cons (r : RobotsRule) (rules : List RobotsRule) (path : String) (n : Int) :
    hasAllowAt (r :: rules) path n =
      ((pathMatches r.path path && decide ((stripLen r.path : Int) = n) && r.allow) ||
        hasAllowAt rules path n) := by
  simp [hasAllowAt]

theorem bestRuleFold_char (path : String) :
    ∀ (rules : List RobotsRule) (b : Option RobotsRule) (bl : Int), -1 ≤ bl →
    (rules.foldl (bestRuleFold path) (b, bl)).2 = max bl (mMaxI rules path) ∧
    ((rules.foldl (bestRuleFold path) (b, bl)).1).map RobotsRule.allow =
      (if bl < mMaxI rules path then some (hasAllowAt rules path (mMaxI rules path))
       else if hasAllowAt rules path bl then some true
       else b.map RobotsRule.allow) := by
  intro rules
  induction rules with
  | nil =>
    intro b bl hbl
    refine ⟨?_, ?_⟩
    · rw [mMaxI_nil]
      exact (max_eq_left hbl).symm
    · rw [mMaxI_nil, if_neg (by omega)]
      have hA : hasAllowAt [] path bl = false := rfl
      rw [hA]
      simp
  | cons r rules ih =>
    intro b bl hbl
    rw [List.foldl_cons, mMaxI_cons, hasAllowAt_cons]
    by_cases hm : pathMatches r.path path = true
    · rw [if_pos hm, hm]
      have hsl : (0 : Int) ≤ (stripLen r.path : Int) := Int.natCast_nonneg _
      by_cases h1 : bl < (stripLen r.path : Int)
      · have hstep : bestRuleFold path (b, bl) r = (some r, (stripLen r.path : Int)) := by
          unfold bestRuleFold
          rw [if_pos hm]
          dsimp only
          rw [if_pos h1]
        rw [hstep]
        obtain ⟨ha2, ha1⟩ := ih (some r) (stripLen r.path : Int) (by omega)
        refine ⟨by rw [ha2]; omega, ?_⟩
        rw [ha1]
        have hbm : bl < max (stripLen r.path : Int) (mMaxI rules path) := by omega
        rw [if_pos hbm]
        by_cases h2 : (stripLen r.path : Int) < mMaxI rules path
        · rw [if_pos h2]
          have hmx : max (stripLen r.path : Int) (mMaxI rules path) = mMaxI rules path := by
            omega
          rw [hmx]
          have hne : decide ((stripLen r.path : Int) = mMaxI rules path) = false :=
            decide_eq_false (by omega)
          rw [hne]
          simp
        · rw [if_neg h2]
          have hmx : max (stripLen r.path : Int) (mMaxI rules path) = (stripLen r.path : Int) := by
            omega
          rw [hmx]
          have heq : decide ((stripLen r.path : Int) = (stripLen r.path : Int)) = true :=
            decide_eq_true rfl
          rw [heq]
          by_cases h3 : hasAllowAt rules path (stripLen r.path : Int) = true
          · rw [h3, if_pos rfl]
            simp
          · rw [(Bool.not_eq_true _).mp h3, if_neg (by simp)]
            simp
      · by_cases h2 : bl = (stripLen r.path : Int) ∧ r.allow = true
        · have hstep : bestRuleFold path (b, bl) r = (some r, bl) := by
            unfold bestRuleFold
            rw [if_pos hm]
            dsimp only
            rw [if_neg h1, if_pos h2]
          rw [hstep]
          obtain ⟨ha2, ha1⟩ := ih (some r) bl hbl
          have hbe := h2.1
          refine ⟨by rw [ha2]; omega, ?_⟩
          rw [ha1]
          by_cases h3 : bl < mMaxI rules path
          · have hbm : bl < max (stripLen r.path : Int) (mMaxI rules path) := by omega
            rw [if_pos h3, if_pos hbm]
            have hmx : max (stripLen r.path : Int) (mMaxI rules path) = mMaxI rules path := by
              omega
            rw [hmx]
            have hne : decide ((stripLen r.path : Int) = mMaxI rules path) = false :=
              decide_eq_false (by omega)
            rw [hne]
            simp
          · have hbm : ¬ bl < max (stripLen r.path : Int) (mMaxI rules path) := by omega
            rw [if_neg h3, if_neg hbm]
            have hcons : hasAllowAt (r :: rules) path bl = true := by
              rw [hasAllowAt_cons, hm, h2.2]
              have hde : decide ((stripLen r.path : Int) = bl) = true :=
                decide_eq_true (by omega)
              rw [hde]
              simp
            rw [hcons, if_pos rfl]
            by_cases h4 : hasAllowAt rules path bl = true
            · rw [h4, if_pos rfl]
            · rw [(Bool.not_eq_true _).mp h4, if_neg (by simp)]
              simp [h2.2]
        · have hstep : bestRuleFold path (b, bl) r = (b, bl) := by
            unfold bestRuleFold
            rw [if_pos hm]
            dsimp only
            rw [if_neg h1, if_neg h2]
          rw [hstep]
          obtain ⟨ha2, ha1⟩ := ih b bl hbl
          have hsl2 : (stripLen r.path : Int) ≤ bl := by omega
          refine ⟨by rw [ha2]; omega, ?_⟩
          rw [ha1]
          have hfirst : (pathMatches r.path path && decide ((stripLen r.path : Int) = bl) &&
              r.allow) = false := by
            rcases lt_or_eq_of_le hsl2 with hlt | heq
            · have hne : decide ((stripLen r.path : Int) = bl) = false :=
                decide_eq_false (by omega)
              rw [hne]
              simp
            · have hna : r.allow = false := by
                rcases Bool.eq_false_or_eq_true r.allow with ht | hf
                · exact absurd ⟨heq.symm, ht⟩ h2
                · exact hf
              rw [hna]
              simp
          have hcons : hasAllowAt (r :: rules) path bl = hasAllowAt rules path bl := by
            rw [hasAllowAt_cons, hfirst]
            simp
          rw [hcons]
          by_cases h3 : bl < mMaxI rules path
          · have hbm : bl < max (stripLen r.path : Int) (mMaxI rules path) := by omega
            rw [if_pos h3, if_pos hbm]
            have hmx : max (stripLen r.path : Int) (mMaxI rules path) = mMaxI rules path := by
              omega
            rw [hmx]
            have hne2 : decide ((stripLen r.path : Int) = mMaxI rules path) = false :=
              decide_eq_false (by omega)
            rw [hne2]
            simp
          · have hbm : ¬ bl < max (stripLen r.path : Int) (mMaxI rules path) := by omega
            rw [if_neg h3, if_neg hbm]
    · rw [if_neg hm, (Bool.not_eq_true _).mp hm]
      have hstep : bestRuleFold path (b, bl) r = (b, bl) := by
        unfold bestRuleFold
        rw [if_neg hm]
      rw [hstep]
      obtain ⟨ha2, ha1⟩ := ih b bl hbl
      have hcons : hasAllowAt (r :: rules) path bl = hasAllowAt rules path bl := by
        rw [hasAllowAt_cons, (Bool.not_eq_true _).mp hm]
        simp
      refine ⟨ha2, ?_⟩
      rw [ha1, hcons]
      simp only [Bool.false_and, Bool.false_or]

theorem foldr_castI (m : List RobotsRule) (hm : m ≠ []) :
    (m.map (fun r => (stripLen r.path : Int))).foldr max (-1) =
    (((m.map (fun r => stripLen r.path)).foldr max 0 : Nat) : Int) := by
  induction m with
  | nil => exact absurd rfl hm
  | cons a t ih =>
    cases t with
    | nil =>
      simp only [List.map_cons, List.map_nil, List.foldr]
      omega
    | cons b t₂ =>
      have ih₂ := ih (by simp)
      simp only [List.map_cons, List.foldr] at ih₂ ⊢
      rw [ih₂]
      omega

theorem hasAllowAt_natCast (rules : List RobotsRule) (path : String) (N : Nat) :
    hasAllowAt rules path (N : Int) =
      (matchingRules rules path).any (fun r => decide (stripLen r.path = N) && r.allow) := by
  unfold hasAllowAt matchingRules
  rw [List.any_filter]
  congr 1
  funext r
  have hd : decide ((stripLen r.path : Int) = (N : Int)) = decide (stripLen r.path = N) := by
    simp
  rw [hd, Bool.and_assoc]

/-- The fold in `isAllowed` decides exactly as the specification describes:
no matching rule allows, and otherwise some matching rule of maximal
wildcard-stripped length must be an `Allow`. -/
theorem bestRule_allow_spec (rules : List RobotsRule) (path : String) :
    (match bestRule rules path with
     | none => true
     | some r => r.allow) = ruleDecisionSpec rules path := by
  obtain ⟨h2, h1⟩ := bestRuleFold_char path rules none (-1) (le_refl _)
  have hbr : (rules.foldl (bestRuleFold path) (none, -1)).1 = bestRule rules path := rfl
  rw [hbr] at h1
  unfold ruleDecisionSpec
  rcases e : matchingRules rules path with _ | ⟨m₀, ms⟩
  · have hM : mMaxI rules path = -1 := by
      unfold mMaxI
      rw [e]
      rfl
    rw [hM, if_neg (by omega)] at h1
    have hA : hasAllowAt rules path (-1) = false := by
      unfold hasAllowAt
      simp only [List.any_eq_false]
      intro x hx
      have hd : decide ((stripLen x.path : Int) = -1) = false := decide_eq_false (by omega)
      rw [hd]
      simp
    rw [hA, if_neg (by simp)] at h1
    rcases o : bestRule rules path with _ | r
    · rfl
    · rw [o] at h1
      simp at h1
  · have hM : mMaxI rules path =
        ((((matchingRules rules path).map (fun r => stripLen r.path)).foldr max 0 : Nat) :
          Int) := by
      unfold mMaxI
      exact foldr_castI _ (by rw [e]; simp)
    rw [hM, if_pos (by omega)] at h1
    rcases o : bestRule rules path with _ | r
    · rw [o] at h1
      simp at h1
    · rw [o] at h1
      dsimp only
      have hr := Option.some.inj (by simpa using h1)
      rw [hr]
      rw [hasAllowAt_natCast, e]

/-! ### Robots group selection: the three loops compute the spec's choice -/

theorem any_congr_mem {α : Type} {p q : α → Bool} {l : List α}
    (h : ∀ x ∈ l, p x = q x) : l.any p = l.any q := by
  induction l with
  | nil => rfl
  | cons a t ih =>
    simp only [List.any_cons]
    rw [h a (List.mem_cons_self a t), ih (fun x hx => h x (List.mem_cons_of_mem _ hx))]

theorem find?_congr_mem {α : Type} {p q : α → Bool} {l : List α}
    (h : ∀ x ∈ l, p x = q x) : l.find? p = l.find? q := by
  induction l with
  | nil => rfl
  | cons a t ih =>
    by_cases ha : q a = true
    · rw [List.find?_cons_of_pos t (by rw [h a (List.mem_cons_self a t)]; exact ha),
        List.find?_cons_of_pos t ha]
    · rw [List.find?_cons_of_neg t (by rw [h a (List.mem_cons_self a t)]; exact ha),
        List.find?_cons_of_neg t ha]
      exact ih (fun x hx => h x (List.mem_cons_of_mem _ hx))

theorem contains_eq_any (l : List String) (x : String) :
    l.contains x = l.any (fun a => a = x) := by
  rw [List.contains_eq_any_beq]
  congr 1
  funext a
  by_cases h : x = a
  · simp [h]
  · have h2 : ¬ a = x := fun hh => h hh.symm
    simp [h, h2]

theorem isSubstr_length_le {a b : String} (h : isSubstr a b = true) :
    a.length ≤ b.length :=
  isSubstrL_length_le h

theorem isSubstr_eq_of_length {a b : String} (h : isSubstr a b = true)
    (hl : a.length = b.length) : a = b := by
  have h2 : a.data = b.data := isSubstrL_eq_of_length_eq h hl
  rcases a with ⟨da⟩
  rcases b with ⟨db⟩
  rw [show ({ data := da } : String).data = da from rfl,
    show ({ data := db } : String).data = db from rfl] at h2
  rw [h2]

theorem exactLoop_none (ua : String) : ∀ gs : List RobotsGroup, exactLoop ua gs = none := by
  intro gs
  induction gs with
  | nil => rfl
  | cons g t ih =>
    by_cases h1 : g.userAgents.any (fun a => isSubstr a ua || a = "*") = true
    · simp only [exactLoop]
      rw [if_pos h1]
      exact ih
    · have h2 : g.userAgents.any (fun a => a = ua) = false := by
        simp only [List.any_eq_false]
        intro a ha
        simp only [decide_eq_true_eq]
        rintro rfl
        exact h1 (List.any_eq_true.mpr ⟨a, ha, by rw [isSubstr_refl]; rfl⟩)
      simp only [exactLoop]
      rw [if_neg h1, h2]
      simp only [Bool.false_eq_true, if_false]
      exact ih

theorem tokMax_nil (u : String) : tokMax u [] = 0 := rfl

theorem tokMax_cons (u : String) (a : String) (as : List String) :
    tokMax u (a :: as) =
      if (decide (a ≠ "*") && isSubstr a u) = true then max a.length (tokMax u as)
      else tokMax u as := by
  unfold tokMax
  rw [List.filter_cons]
  by_cases hq : (decide (a ≠ "*") && isSubstr a u) = true
  · rw [if_pos (by simpa using hq), if_pos hq]
    rfl
  · rw [if_neg (by simpa using hq), if_neg hq]

theorem tokMax_le {u : String} {as : List String} {b : Nat}
    (h : ∀ a ∈ as, (decide (a ≠ "*") && isSubstr a u) = true → a.length ≤ b) :
    tokMax u as ≤ b := by
  induction as with
  | nil => exact Nat.zero_le b
  | cons a t ih =>
    rw [tokMax_cons]
    by_cases hq : (decide (a ≠ "*") && isSubstr a u) = true
    · rw [if_pos hq]
      have h1 := h a (List.mem_cons_self a t) hq
      have h2 := ih (fun x hx hq2 => h x (List.mem_cons_of_mem _ hx) hq2)
      omega
    · rw [if_neg hq]
      exact ih (fun x hx hq2 => h x (List.mem_cons_of_mem _ hx) hq2)

theorem tokMax_ge {u : String} {as : List String} {a : String} (ha : a ∈ as)
    (hq : (decide (a ≠ "*") && isSubstr a u) = true) : a.length ≤ tokMax u as := by
  induction as with
  | nil => simp at ha
  | cons x t ih =>
    rw [tokMax_cons]
    rcases List.mem_cons.mp ha with rfl | ha2
    · rw [if_pos hq]
      omega
    · by_cases hx : (decide (x ≠ "*") && isSubstr x u) = true
      · rw [if_pos hx]
        have := ih ha2
        omega
      · rw [if_neg hx]
        exact ih ha2

theorem tokMax_attained {u : String} {as : List String} (h : tokMax u as ≠ 0) :
    ∃ a ∈ as, (decide (a ≠ "*") && isSubstr a u) = true ∧ a.length = tokMax u as := by
  induction as with
  | nil => exact absurd rfl h
  | cons a t ih =>
    rw [tokMax_cons] at h ⊢
    by_cases hq : (decide (a ≠ "*") && isSubstr a u) = true
    · rw [if_pos hq] at h ⊢
      by_cases hle : tokMax u t ≤ a.length
      · exact ⟨a, List.mem_cons_self a t, hq, by omega⟩
      · have ht : tokMax u t ≠ 0 := by omega
        obtain ⟨x, hx, hxq, hxl⟩ := ih ht
        exact ⟨x, List.mem_cons_of_mem _ hx, hxq, by omega⟩
    · rw [if_neg hq] at h ⊢
      obtain ⟨x, hx, hxq, hxl⟩ := ih h
      exact ⟨x, List.mem_cons_of_mem _ hx, hxq, hxl⟩

theorem globMax_nil (u : String) : globMax u [] = 0 := rfl

theorem globMax_cons (u : String) (g : RobotsGroup) (gs : List RobotsGroup) :
    globMax u (g :: gs) = max (gMaxC u g) (globMax u gs) := rfl

theorem globMax_ge {u : String} {gs : List RobotsGroup} {g : RobotsGroup} (hg : g ∈ gs) :
    gMaxC u g ≤ globMax u gs := by
  induction gs with
  | nil => simp at hg
  | cons x t ih =>
    rw [globMax_cons]
    rcases List.mem_cons.mp hg with rfl | hg2
    · omega
    · have := ih hg2
      omega

theorem globMax_le {u : String} {gs : List RobotsGroup} {b : Nat}
    (h : ∀ g ∈ gs, gMaxC u g ≤ b) : globMax u gs ≤ b := by
  induction gs with
  | nil => exact Nat.zero_le b
  | cons x t ih =>
    rw [globMax_cons]
    have h1 := h x (List.mem_cons_self x t)
    have h2 := ih (fun g hg => h g (List.mem_cons_of_mem _ hg))
    omega

theorem globMax_attained {u : String} {gs : List RobotsGroup} (h : globMax u gs ≠ 0) :
    ∃ g ∈ gs, gMaxC u g = globMax u gs := by
  induction gs with
  | nil => exact absurd rfl h
  | cons x t ih =>
    rw [globMax_cons] at h ⊢
    by_cases hle : globMax u t ≤ gMaxC u x
    · exact ⟨x, List.mem_cons_self x t, by omega⟩
    · have ht : globMax u t ≠ 0 := by omega
      obtain ⟨g, hg, hgl⟩ := ih ht
      exact ⟨g, List.mem_cons_of_mem _ hg, by omega⟩

theorem partialFold_char (u : String) (g : RobotsGroup) :
    ∀ (as : List String) (b : Option RobotsGroup) (bl : Nat),
    as.foldl
        (fun acc a =>
          if a ≠ "*" ∧ isSubstr a u = true ∧ acc.2 < a.length then (some g, a.length) else acc)
        (b, bl) =
      if bl < tokMax u as then (some g, tokMax u as) else (b, bl) := by
  intro as
  induction as with
  | nil =>
    intro b bl
    rw [List.foldl_nil, tokMax_nil, if_neg (by omega)]
  | cons a t ih =>
    intro b bl
    rw [List.foldl_cons]
    dsimp only
    by_cases hq : a ≠ "*" ∧ isSubstr a u = true
    · have hqb : (decide (a ≠ "*") && isSubstr a u) = true := by
        rw [hq.2]
        simp [hq.1]
      have htm : tokMax u (a :: t) = max a.length (tokMax u t) := by
        rw [tokMax_cons, if_pos hqb]
      by_cases hlt : bl < a.length
      · rw [if_pos ⟨hq.1, hq.2, hlt⟩, ih, htm]
        by_cases h2 : a.length < tokMax u t
        · rw [if_pos h2, if_pos (show bl < max a.length (tokMax u t) by omega)]
          congr 1
          omega
        · rw [if_neg h2, if_pos (show bl < max a.length (tokMax u t) by omega)]
          congr 1
          omega
      · rw [if_neg (fun hcon => hlt hcon.2.2), ih, htm]
        by_cases h2 : bl < tokMax u t
        · rw [if_pos h2, if_pos (show bl < max a.length (tokMax u t) by omega)]
          congr 1
          omega
        · rw [if_neg h2, if_neg (show ¬ bl < max a.length (tokMax u t) by omega)]
    · have hqb : (decide (a ≠ "*") && isSubstr a u) ≠ true := by
        intro hcon
        rw [Bool.and_eq_true, decide_eq_true_eq] at hcon
        exact hq ⟨hcon.1, hcon.2⟩
      have htm : tokMax u (a :: t) = tokMax u t := by
        rw [tokMax_cons, if_neg hqb]
      rw [if_neg (fun hcon => hq ⟨hcon.1, hcon.2.1⟩), ih, htm]

theorem partialStep_char (u : String) (g : RobotsGroup) (b : Option RobotsGroup) (bl : Nat) :
    partialStep u g (b, bl) =
      if bl < gMaxC u g then (some g, gMaxC u g) else (b, bl) := by
  unfold partialStep gMaxC
  exact partialFold_char u g g.userAgents b bl

theorem partialLoopFold_char (u : String) :
    ∀ (gs : List RobotsGroup) (b : Option RobotsGroup) (bl : Nat),
    gs.foldl (fun acc g => partialStep u g acc) (b, bl) =
      if bl < globMax u gs then
        (gs.find? (fun g => decide (globMax u gs ≤ gMaxC u g)), globMax u gs)
      else (b, bl) := by
  intro gs
  induction gs with
  | nil =>
    intro b bl
    rw [List.foldl_nil, globMax_nil, if_neg (by omega)]
  | cons x t ih =>
    intro b bl
    rw [List.foldl_cons]
    rw [partialStep_char]
    by_cases hA : bl < gMaxC u x
    · rw [if_pos hA, ih]
      by_cases h1 : gMaxC u x < globMax u t
      · have hM : globMax u (x :: t) = globMax u t := by
          rw [globMax_cons]
          omega
        rw [if_pos h1, hM, if_pos (show bl < globMax u t by omega),
          List.find?_cons_of_neg t (by rw [decide_eq_true_eq]; omega)]
      · have hM : globMax u (x :: t) = gMaxC u x := by
          rw [globMax_cons]
          omega
        rw [if_neg h1, hM, if_pos (show bl < gMaxC u x by omega),
          List.find?_cons_of_pos t (by rw [decide_eq_true_eq])]
    · rw [if_neg hA, ih]
      by_cases h1 : bl < globMax u t
      · have hM : globMax u (x :: t) = globMax u t := by
          rw [globMax_cons]
          omega
        rw [if_pos h1, hM, if_pos h1,
          List.find?_cons_of_neg t (by rw [decide_eq_true_eq]; omega)]
      · rw [if_neg h1, if_neg (show ¬ bl < globMax u (x :: t) by rw [globMax_cons]; omega)]

theorem partialLoop_char (u : String) (gs : List RobotsGroup) :
    partialLoop u gs =
      if 0 < globMax u gs then gs.find? (fun g => decide (globMax u gs ≤ gMaxC u g))
      else none := by
  unfold partialLoop
  rw [partialLoopFold_char]
  by_cases h : 0 < globMax u gs
  · rw [if_pos h, if_pos h]
  · rw [if_neg h, if_neg h]

theorem length_pos_of_ne {a : String} (h : a ≠ "") : 0 < a.length := by
  rcases a with ⟨l⟩
  cases l with
  | nil => exact absurd rfl h
  | cons c t => exact Nat.succ_pos t.length

theorem ne_empty_of_length_pos {a : String} (h : 0 < a.length) : a ≠ "" := by
  intro hcon
  rw [hcon] at h
  exact Nat.lt_irrefl 0 h

theorem wildLoop_eq (gs : List RobotsGroup) : wildLoop gs = findWildSpec gs := by
  unfold wildLoop findWildSpec
  exact find?_congr_mem (fun g _ => contains_eq_any g.userAgents "*")

theorem qualTok_eq {gs : List RobotsGroup} (hgood : lowTokens gs) {g : RobotsGroup}
    (hg : g ∈ gs) {a : String} (ha : a ∈ g.userAgents) (ua : String) :
    qualTok ua a = (decide (a ≠ "*") && isSubstr a (lowerS ua)) := by
  unfold qualTok
  rw [(hgood g hg a ha).2]

theorem maxTokLen_eq_globMax {gs : List RobotsGroup} (hgood : lowTokens gs) (ua : String) :
    maxTokLen gs ua = globMax (lowerS ua) gs := by
  unfold maxTokLen globMax
  congr 1
  apply List.map_congr_left
  intro g hg
  unfold gMaxC tokMax
  rw [List.filter_congr (fun a ha => qualTok_eq hgood hg ha ua)]

theorem globMax_le_ua {gs : List RobotsGroup} (ua : String) :
    globMax (lowerS ua) gs ≤ (lowerS ua).length := by
  apply globMax_le
  intro g _
  apply tokMax_le
  intro a _ hq
  rw [Bool.and_eq_true] at hq
  exact isSubstr_length_le hq.2

theorem subPred_eq {gs : List RobotsGroup} (hgood : lowTokens gs) (ua : String)
    (hM : 0 < globMax (lowerS ua) gs) {g : RobotsGroup} (hg : g ∈ gs) :
    (g.userAgents.any (fun a => qualTok ua a && decide (a.length = globMax (lowerS ua) gs)))
      = decide (globMax (lowerS ua) gs ≤ gMaxC (lowerS ua) g) := by
  by_cases hle : globMax (lowerS ua) gs ≤ gMaxC (lowerS ua) g
  · have heq : gMaxC (lowerS ua) g = globMax (lowerS ua) gs :=
      Nat.le_antisymm (globMax_ge hg) hle
    have hne : tokMax (lowerS ua) g.userAgents ≠ 0 := by
      have : gMaxC (lowerS ua) g = tokMax (lowerS ua) g.userAgents := rfl
      omega
    obtain ⟨a, ha, haq, hal⟩ := tokMax_attained hne
    rw [decide_eq_true hle]
    apply List.any_eq_true.mpr
    refine ⟨a, ha, ?_⟩
    rw [Bool.and_eq_true, qualTok_eq hgood hg ha ua, decide_eq_true_eq]
    refine ⟨haq, ?_⟩
    have : gMaxC (lowerS ua) g = tokMax (lowerS ua) g.userAgents := rfl
    omega
  · rw [decide_eq_false hle]
    apply List.any_eq_false.mpr
    intro a ha
    rw [Bool.and_eq_true, qualTok_eq hgood hg ha ua, decide_eq_true_eq]
    rintro ⟨haq, hal⟩
    have h1 : a.length ≤ tokMax (lowerS ua) g.userAgents := tokMax_ge ha haq
    have h2 : gMaxC (lowerS ua) g = tokMax (lowerS ua) g.userAgents := rfl
    omega

theorem exactPred_eq {gs : List RobotsGroup} (hgood : lowTokens gs) (ua : String)
    (hstar : lowerS ua ≠ "*")
    (hMeq : globMax (lowerS ua) gs = (lowerS ua).length)
    (hpos : lowerS ua ≠ "") {g : RobotsGroup} (hg : g ∈ gs) :
    (g.userAgents.any (fun a => lowerS a = lowerS ua))
      = decide (globMax (lowerS ua) gs ≤ gMaxC (lowerS ua) g) := by
  by_cases hle : globMax (lowerS ua) gs ≤ gMaxC (lowerS ua) g
  · have heq : gMaxC (lowerS ua) g = globMax (lowerS ua) gs :=
      Nat.le_antisymm (globMax_ge hg) hle
    have hup : 0 < (lowerS ua).length := length_pos_of_ne hpos
    have hne : tokMax (lowerS ua) g.userAgents ≠ 0 := by
      have : gMaxC (lowerS ua) g = tokMax (lowerS ua) g.userAgents := rfl
      omega
    obtain ⟨a, ha, haq, hal⟩ := tokMax_attained hne
    rw [Bool.and_eq_true, decide_eq_true_eq] at haq
    have halen : a.length = (lowerS ua).length := by
      have : gMaxC (lowerS ua) g = tokMax (lowerS ua) g.userAgents := rfl
      omega
    have haeq : a = lowerS ua := isSubstr_eq_of_length haq.2 halen
    rw [decide_eq_true hle]
    apply List.any_eq_true.mpr
    exact ⟨a, ha, by rw [decide_eq_true_eq, (hgood g hg a ha).2, haeq]⟩
  · rw [decide_eq_false hle]
    apply List.any_eq_false.mpr
    intro a ha
    rw [decide_eq_true_eq]
    intro haeq
    have haeq2 : a = lowerS ua := by rw [← (hgood g hg a ha).2, haeq]
    have hq : (decide (a ≠ "*") && isSubstr a (lowerS ua)) = true := by
      rw [Bool.and_eq_true, decide_eq_true_eq]
      exact ⟨by rw [haeq2]; exact hstar, by rw [haeq2]; exact isSubstr_refl _⟩
    have h1 : a.length ≤ tokMax (lowerS ua) g.userAgents := tokMax_ge ha hq
    have h2 : gMaxC (lowerS ua) g = tokMax (lowerS ua) g.userAgents := rfl
    have h3 : a.length = (lowerS ua).length := by rw [haeq2]
    omega

theorem findMatchingGroup_spec_of_good (gs : List RobotsGroup) (ua : String)
    (hgood : lowTokens gs) :
    findMatchingGroup gs ua = findMatchingGroupSpec gs ua := by
  have hcode : findMatchingGroup gs ua =
      (match partialLoop (lowerS ua) gs with
       | some g => some g
       | none => wildLoop gs) := by
    unfold findMatchingGroup
    rw [exactLoop_none]
  rw [hcode, partialLoop_char]
  by_cases hM : 0 < globMax (lowerS ua) gs
  · -- a qualifying token exists: the partial pass decides, and it agrees
    -- with the spec's exact and longest-substring passes
    obtain ⟨gw, hgw, hgwl⟩ := globMax_attained (Nat.pos_iff_ne_zero.mp hM)
    have hgwne : tokMax (lowerS ua) gw.userAgents ≠ 0 := by
      have : gMaxC (lowerS ua) gw = tokMax (lowerS ua) gw.userAgents := rfl
      omega
    obtain ⟨aw, haw, hawq, hawl⟩ := tokMax_attained hgwne
    rw [Bool.and_eq_true, decide_eq_true_eq] at hawq
    have hawpos : 0 < aw.length := by
      have : gMaxC (lowerS ua) gw = tokMax (lowerS ua) gw.userAgents := rfl
      omega
    have hstar : lowerS ua ≠ "*" := by
      intro hcon
      have h1 : aw.length ≤ (lowerS ua).length := isSubstr_length_le hawq.2
      have h2 : (lowerS ua).length = 1 := by rw [hcon]; rfl
      have h3 : aw = lowerS ua := isSubstr_eq_of_length hawq.2 (by omega)
      exact hawq.1 (by rw [h3, hcon])
    have hupos : lowerS ua ≠ "" := by
      apply ne_empty_of_length_pos
      have h1 : aw.length ≤ (lowerS ua).length := isSubstr_length_le hawq.2
      omega
    have hfs : (gs.find? (fun g =>
        decide (globMax (lowerS ua) gs ≤ gMaxC (lowerS ua) g))).isSome := by
      apply List.find?_isSome.mpr
      exact ⟨gw, hgw, by rw [decide_eq_true_eq]; omega⟩
    obtain ⟨g0, hg0⟩ := Option.isSome_iff_exists.mp hfs
    rw [if_pos hM, hg0]
    by_cases hMeq : globMax (lowerS ua) gs = (lowerS ua).length
    · -- an exact token exists, and the spec's exact pass returns the same
      -- group the partial pass does
      have hE : findExactSpec gs ua = some g0 := by
        unfold findExactSpec
        rw [find?_congr_mem (fun g hg => exactPred_eq hgood ua hstar hMeq hupos hg)]
        exact hg0
      unfold findMatchingGroupSpec
      rw [hE]
    · -- no exact token: the spec's exact pass is empty and its substring
      -- pass returns the partial winner
      have hE : findExactSpec gs ua = none := by
        unfold findExactSpec
        apply List.find?_eq_none.mpr
        intro g hg
        rw [Bool.not_eq_true]
        apply List.any_eq_false.mpr
        intro a ha
        rw [decide_eq_true_eq]
        intro haeq
        have haeq2 : a = lowerS ua := by rw [← (hgood g hg a ha).2, haeq]
        have hq : (decide (a ≠ "*") && isSubstr a (lowerS ua)) = true := by
          rw [Bool.and_eq_true, decide_eq_true_eq]
          exact ⟨by rw [haeq2]; exact hstar, by rw [haeq2]; exact isSubstr_refl _⟩
        have h1 : a.length ≤ tokMax (lowerS ua) g.userAgents := tokMax_ge ha hq
        have h2 : gMaxC (lowerS ua) g = tokMax (lowerS ua) g.userAgents := rfl
        have h3 : gMaxC (lowerS ua) g ≤ globMax (lowerS ua) gs := globMax_ge hg
        have h4 : globMax (lowerS ua) gs ≤ (lowerS ua).length := globMax_le_ua ua
        have h5 : a.length = (lowerS ua).length := by rw [haeq2]
        omega
      have hguard : gs.any (fun g => g.userAgents.any (qualTok ua)) = true := by
        apply List.any_eq_true.mpr
        refine ⟨gw, hgw, List.any_eq_true.mpr ⟨aw, haw, ?_⟩⟩
        rw [qualTok_eq hgood hgw haw ua, Bool.and_eq_true, decide_eq_true_eq]
        exact hawq
      have hS : findSubSpec gs ua = some g0 := by
        unfold findSubSpec
        rw [if_pos hguard, maxTokLen_eq_globMax hgood ua,
          find?_congr_mem (fun g hg => subPred_eq hgood ua hM hg)]
        exact hg0
      unfold findMatchingGroupSpec
      rw [hE, hS]
  · -- no qualifying token: the partial pass is empty and both sides fall
    -- back to the wildcard group
    have hM0 : globMax (lowerS ua) gs = 0 := by omega
    rw [if_neg hM]
    have hguard : gs.any (fun g => g.userAgents.any (qualTok ua)) = false := by
      apply List.any_eq_false.mpr
      intro g hg
      rw [Bool.not_eq_true]
      apply List.any_eq_false.mpr
      intro a ha
      rw [qualTok_eq hgood hg ha ua]
      intro hq
      have h1 : a.length ≤ tokMax (lowerS ua) g.userAgents := tokMax_ge ha hq
      have h2 : gMaxC (lowerS ua) g = tokMax (lowerS ua) g.userAgents := rfl
      have h3 : gMaxC (lowerS ua) g ≤ globMax (lowerS ua) gs := globMax_ge hg
      have h4 : 0 < a.length := length_pos_of_ne (hgood g hg a ha).1
      omega
    have hS : findSubSpec gs ua = none := by
      unfold findSubSpec
      rw [if_neg (by rw [hguard]; exact Bool.false_ne_true)]
    by_cases hstar : lowerS ua = "*"
    · -- the agent string is the literal `*`: the spec's exact pass and the
      -- wildcard fallback find the same group
      have hE : findExactSpec gs ua = wildLoop gs := by
        unfold findExactSpec wildLoop
        apply find?_congr_mem
        intro g hg
        rw [contains_eq_any]
        apply any_congr_mem
        intro a ha
        rw [(hgood g hg a ha).2, hstar]
      unfold findMatchingGroupSpec
      rw [hE, hS, ← wildLoop_eq]
      cases hw : wildLoop gs with
      | none => rfl
      | some w => rfl
    · have hE : findExactSpec gs ua = none := by
        unfold findExactSpec
        apply List.find?_eq_none.mpr
        intro g hg
        rw [Bool.not_eq_true]
        apply List.any_eq_false.mpr
        intro a ha
        rw [decide_eq_true_eq]
        intro haeq
        have haeq2 : a = lowerS ua := by rw [← (hgood g hg a ha).2, haeq]
        have hq : (decide (a ≠ "*") && isSubstr a (lowerS ua)) = true := by
          rw [Bool.and_eq_true, decide_eq_true_eq]
          exact ⟨by rw [haeq2]; exact hstar, by rw [haeq2]; exact isSubstr_refl _⟩
        have h1 : a.length ≤ tokMax (lowerS ua) g.userAgents := tokMax_ge ha hq
        have h2 : gMaxC (lowerS ua) g = tokMax (lowerS ua) g.userAgents := rfl
        have h3 : gMaxC (lowerS ua) g ≤ globMax (lowerS ua) gs := globMax_ge hg
        have h4 : 0 < a.length := length_pos_of_ne (hgood g hg a ha).1
        omega
      unfold findMatchingGroupSpec
      rw [hE, hS, wildLoop_eq]

/-! ### `parseRobots` produces non-empty lowercase user-agent tokens -/

theorem tok_good {l : List Char} (hl : ¬ l = []) :
    (⟨lowerL l⟩ : String) ≠ "" ∧ lowerS ⟨lowerL l⟩ = ⟨lowerL l⟩ := by
  constructor
  · intro hcon
    have h2 : lowerL l = [] := congrArg String.data hcon
    exact hl (List.map_eq_nil_iff.mp h2)
  · show (⟨lowerL (lowerL l)⟩ : String) = ⟨lowerL l⟩
    rw [lowerL_idem]

theorem lowTokens_nil : lowTokens [] := fun g hg => absurd hg (List.not_mem_nil g)

theorem lowTokens_cons {g : RobotsGroup} {gs : List RobotsGroup}
    (hg : ∀ a ∈ g.userAgents, a ≠ "" ∧ lowerS a = a) (hgs : lowTokens gs) :
    lowTokens (g :: gs) := by
  intro x hx a ha
  rcases List.mem_cons.mp hx with rfl | hx2
  · exact hg a ha
  · exact hgs x hx2 a ha

theorem lowTokens_tail {g : RobotsGroup} {gs : List RobotsGroup}
    (h : lowTokens (g :: gs)) : lowTokens gs :=
  fun x hx => h x (List.mem_cons_of_mem g hx)

theorem lowTokens_same_agents {x y : RobotsGroup} {gs : List RobotsGroup}
    (hagents : y.userAgents = x.userAgents) (h : lowTokens (x :: gs)) :
    lowTokens (y :: gs) := by
  intro z hz a ha
  rcases List.mem_cons.mp hz with rfl | hz2
  · rw [hagents] at ha
    exact h x (List.mem_cons_self x gs) a ha
  · exact h z (List.mem_cons_of_mem x hz2) a ha

theorem robotsLine_good (gl : List RobotsGroup) (sm : List String) (line : List Char)
    (h : lowTokens gl) : lowTokens (robotsLine (gl, sm) line).1 := by
  unfold robotsLine
  dsimp only
  split
  · exact h
  split
  · exact h
  rename_i c afterColon
  split
  · exact h
  rename_i hv
  split
  · -- user-agent line
    split
    · -- no current group: a fresh singleton group is pushed
      apply lowTokens_cons
      · intro a ha
        rw [List.mem_singleton] at ha
        subst ha
        exact tok_good hv
      · exact lowTokens_nil
    · rename_i g gs
      split
      · -- the current group already has rules: a fresh group is pushed
        apply lowTokens_cons
        · intro a ha
          rw [List.mem_singleton] at ha
          subst ha
          exact tok_good hv
        · exact h
      · -- consecutive user-agent lines extend the current group
        apply lowTokens_cons
        · intro a ha
          rcases List.mem_append.mp ha with h1 | h2
          · exact h g (List.mem_cons_self g gs) a h1
          · rw [List.mem_singleton] at h2
            subst h2
            exact tok_good hv
        · exact lowTokens_tail h
  split
  · -- disallow line: only the rule list changes
    split
    · exact h
    rename_i g gs
    exact lowTokens_same_agents (x := g) rfl h
  split
  · -- allow line: only the rule list changes
    split
    · exact h
    rename_i g gs
    exact lowTokens_same_agents (x := g) rfl h
  split
  · -- crawl-delay line: only the delay field changes
    split
    · exact h
    rename_i g gs
    split
    · exact lowTokens_same_agents (x := g) rfl h
    · exact h
  split
  · -- sitemap line: the group list is untouched
    exact h
  · exact h

theorem foldl_robotsLine_good (lines : List (List Char)) :
    ∀ acc : List RobotsGroup × List String, lowTokens acc.1 →
      lowTokens (lines.foldl robotsLine acc).1 := by
  induction lines with
  | nil =>
    intro acc h
    exact h
  | cons l ls ih =>
    intro acc h
    rw [List.foldl_cons]
    obtain ⟨gl, sm⟩ := acc
    exact ih _ (robotsLine_good gl sm l h)

theorem parseRobots_good (txt : String) : lowTokens (parseRobots txt).groups := by
  unfold parseRobots
  dsimp only
  intro g hg
  rw [List.mem_reverse] at hg
  exact foldl_robotsLine_good (splitNL txt.data) ([], [])
    (fun g hg => absurd hg (List.not_mem_nil g)) g hg

/-! ### Glue lemmas for the claims -/

theorem endsDblSlash_of_endsSlash_false {q : List Char} (h : endsSlash q = false) :
    endsDblSlash q = false := by
  rw [endsDblSlash.eq_def]
  rw [endsSlash.eq_def] at h
  rcases e : q.reverse with _ | ⟨c, t⟩
  · rfl
  · rw [e] at h
    dsimp only at h
    cases t with
    | nil => rfl
    | cons d t2 =>
      dsimp only
      rw [h]
      rfl

theorem endsDblSlash_stripSlash {p : List Char} (h : endsDblSlash p = false) :
    endsDblSlash (stripSlash p) = false := by
  unfold stripSlash
  by_cases hc : p ≠ ['/'] ∧ endsSlash p = true
  · rw [if_pos hc]
    obtain ⟨q, rfl⟩ := (endsSlash_iff p).mp hc.2
    rw [List.dropLast_concat]
    rw [endsDblSlash_concat] at h
    exact endsDblSlash_of_endsSlash_false h
  · rw [if_neg hc]
    exact h

theorem applyFetch_sleep (env : String → FetchOutcome) (item : QueueItem)
    (rest : List QueueItem) (s : LoopState) :
    (applyFetch env item rest s).sleepCount = s.sleepCount := by
  unfold applyFetch
  rcases env (normalizeUrl item.url) <;> rfl

/-! ## The claims -/

/-- C1: within one crawl run no normalized URL is fetched twice — in every
state reachable from a fresh crawl the fetch log is duplicate-free, and
every fetched URL was marked visited (visited before fetch, and links
already visited are never enqueued). -/
theorem c1_visited_dedup (cfg : SpiderConfig) (robots : Option (List RobotsGroup))
    (env : String → FetchOutcome) (n : Nat) :
    ((stepG cfg robots env)^[n] (initState cfg)).fetchLog.Nodup ∧
    ∀ u ∈ ((stepG cfg robots env)^[n] (initState cfg)).fetchLog,
      ((stepG cfg robots env)^[n] (initState cfg)).visited.contains u = true :=
  iterate_pres (fun s h => fetchInv_stepOnce h) n (initState cfg)
    ⟨List.nodup_nil, fun u hu => absurd hu (List.not_mem_nil u)⟩

/-- C2: the crawl loop always terminates; it exits exactly when the queue is
empty or the success count has reached `maxPages`; and with `maxPages = 1`
against a seed carrying 10 internal links exactly one page is fetched, the
10 links sit enqueued, and the loop is finished. -/
theorem c2_termination_maxpages :
    (∀ (cfg : SpiderConfig) (robots : Option (List RobotsGroup))
        (env : String → FetchOutcome) (s : LoopState),
      ∃ n, looping cfg ((stepG cfg robots env)^[n] s) = false) ∧
    (∀ (cfg : SpiderConfig) (s : LoopState),
      looping cfg s = false ↔ (s.queue = [] ∨ cfg.maxPages ≤ s.stats.pagesSuccessful)) ∧
    (let cfg : SpiderConfig := ⟨"https://example.com/", 1, 3, 1000, [], [], "spider"⟩
     let env : String → FetchOutcome := fun u =>
       if u = "https://example.com/" then
         FetchOutcome.ok ["https://example.com/p1", "https://example.com/p2",
           "https://example.com/p3", "https://example.com/p4", "https://example.com/p5",
           "https://example.com/p6", "https://example.com/p7", "https://example.com/p8",
           "https://example.com/p9", "https://example.com/p10"] 1000 PageType.other
       else FetchOutcome.err "not fetched" 404
     let s1 := (stepG cfg none env)^[1] (initState cfg)
     s1.stats.pagesSuccessful = 1 ∧ s1.fetchLog = ["https://example.com/"] ∧
       s1.queue.length = 10 ∧ looping cfg s1 = false ∧ stepG cfg none env s1 = s1) := by
  refine ⟨loop_reaches_terminal, ?_, by decide⟩
  intro cfg s
  unfold looping
  rcases e : s.queue with _ | ⟨a, t⟩
  · simp
  · simp only [List.length_cons, Bool.and_eq_false_iff, decide_eq_false_iff_not,
      Nat.not_lt]
    constructor
    · rintro (h1 | h1)
      · omega
      · exact Or.inr h1
    · rintro (h1 | h1)
      · exact absurd h1 (List.cons_ne_nil a t)
      · exact Or.inr h1

/-- C3 (amended): `normalizeUrl` is idempotent on every input except those
parsing to a URL whose path ends in a double slash (the code strips only one
trailing slash, so such paths keep shrinking). -/
theorem c3_normalize_idem (s : String)
    (h : (jsUrlParse s).all (fun u => !endsDblSlash u.path) = true) :
    normalizeUrl (normalizeUrl s) = normalizeUrl s := by
  rcases e : jsUrlParse s with _ | u
  · have h1 : normalizeUrl s = s := by
      unfold normalizeUrl
      rw [e]
    rw [h1]
    exact h1
  · rw [e] at h
    have h2 : (!endsDblSlash u.path) = true := h
    have hds : endsDblSlash u.path = false := by
      revert h2
      cases endsDblSlash u.path
      · intro _
        rfl
      · intro h2
        exact absurd h2 (by decide)
    have h1 : normalizeUrl s = serializeUrl (normParts u) := by
      unfold normalizeUrl
      rw [e]
    have hwf : WFUrl (normParts u) := normParts_WF (jsUrlParse_WF e)
    have hp : jsUrlParse (serializeUrl (normParts u)) = some (normParts u) :=
      parse_serialize hwf rfl
    rw [h1]
    unfold normalizeUrl
    rw [hp]
    dsimp only
    rw [normParts_idem hds]

theorem c3_witness :
    (jsUrlParse "https://Example.com/a/?b=2&a=1#frag").all
        (fun u => !endsDblSlash u.path) = true ∧
    normalizeUrl (normalizeUrl "https://Example.com/a/?b=2&a=1#frag") =
      normalizeUrl "https://Example.com/a/?b=2&a=1#frag" :=
  ⟨by decide, c3_normalize_idem "https://Example.com/a/?b=2&a=1#frag" (by decide)⟩

theorem c3_cex :
    normalizeUrl (normalizeUrl "https://example.com/a//") ≠
      normalizeUrl "https://example.com/a//" := by
  decide

/-- C4 (amended): `isAllowed` is total, and under the empty policy (what a
failed robots.txt fetch produces) it permits exactly the URLs the URL parser
accepts — an unparseable URL yields `false`, not `true`. -/
theorem c4_empty_policy_permissive (url ua : String) :
    isAllowed [] url ua = (jsUrlParse url).isSome := by
  unfold isAllowed
  rcases e : jsUrlParse url with _ | u <;> rfl

theorem c4_cex : isAllowed [] "not a url" "missing.link-spider/1.0" = false := by decide

/-- C5: rule matching supports `*` and a trailing `$`, runs against
`pathname + search`, and the decision follows the longest-stripped-path rule
with ties to `Allow` and no-match meaning allowed; under `Disallow: /a$` the
path `/a` is blocked while `/ab` is not. -/
theorem c5_path_match_best_rule :
    (∀ (gs : List RobotsGroup) (url ua : String),
      isAllowed gs url ua =
        (match jsUrlParse url, findMatchingGroup gs ua with
         | none, _ => false
         | some _, none => true
         | some u, some g =>
           if g.rules.isEmpty then true else ruleDecisionSpec g.rules ⟨pathQ u⟩)) ∧
    pathMatches "/a$" "/a" = true ∧ pathMatches "/a$" "/ab" = false ∧
    pathMatches "/a*c" "/axxc" = true ∧
    isAllowed (parseRobots "User-agent: *\nDisallow: /a$").groups
      "https://example.com/a" "missing.link-spider/1.0" = false ∧
    isAllowed (parseRobots "User-agent: *\nDisallow: /a$").groups
      "https://example.com/ab" "missing.link-spider/1.0" = true := by
  refine ⟨?_, by decide, by decide, by decide, by decide, by decide⟩
  intro gs url ua
  unfold isAllowed
  rcases e : jsUrlParse url with _ | u
  · rfl
  · dsimp only
    rcases e2 : findMatchingGroup gs ua with _ | g
    · rfl
    · dsimp only
      by_cases hr : g.rules.isEmpty = true
      · rw [if_pos hr, if_pos hr]
      · rw [if_neg hr, if_neg hr]
        exact bestRule_allow_spec g.rules ⟨pathQ u⟩

/-- C6: on every parsed policy, group selection equals the spec's rule —
exact case-insensitive token match first, else the longest substring token,
else the wildcard group; and with no group selected every parseable URL is
permitted. -/
theorem c6_group_selection (txt ua : String) :
    findMatchingGroup (parseRobots txt).groups ua =
      findMatchingGroupSpec (parseRobots txt).groups ua ∧
    (∀ url : String, findMatchingGroup (parseRobots txt).groups ua = none →
      (jsUrlParse url).isSome = true →
      isAllowed (parseRobots txt).groups url ua = true) := by
  constructor
  · exact findMatchingGroup_spec_of_good _ _ (parseRobots_good txt)
  · intro url hnone hsome
    unfold isAllowed
    rcases e : jsUrlParse url with _ | u
    · rw [e] at hsome
      exact absurd hsome (by decide)
    · dsimp only
      rw [hnone]

theorem c6_witness :
    findMatchingGroup (parseRobots "").groups "spider" = none ∧
    (jsUrlParse "https://example.com/").isSome = true ∧
    isAllowed (parseRobots "").groups "https://example.com/" "spider" = true :=
  ⟨by decide, by decide,
    (c6_group_selection "" "spider").2 "https://example.com/" (by decide) (by decide)⟩

/-- C7 (amended): only `resume` deletes `state.json` after `processQueue`
returns; a fresh `crawl` has no deletion step, so after it the checkpoint
file exists exactly when ten or more fetch attempts were made. -/
theorem c7_state_file_deletion (s : LoopState) (cfg : SpiderConfig)
    (robots : Option (List RobotsGroup)) (env : String → FetchOutcome) (n : Nat) :
    (resumeFinish s).stateFileExists = false ∧
    ((stepG cfg robots env)^[n] (initState cfg)).stateFileExists =
      decide (10 ≤ ((stepG cfg robots env)^[n] (initState cfg)).stats.pagesRequested) :=
  ⟨rfl, iterate_pres (fun s h => flagInv_stepOnce h) n (initState cfg) rfl⟩

theorem c7_cex :
    (let cfg : SpiderConfig := ⟨"https://example.com/", 50, 3, 1000, [], [], "spider"⟩
     let env : String → FetchOutcome := fun u =>
       if u = "https://example.com/" then
         FetchOutcome.ok ["https://example.com/p1", "https://example.com/p2",
           "https://example.com/p3", "https://example.com/p4", "https://example.com/p5",
           "https://example.com/p6", "https://example.com/p7", "https://example.com/p8",
           "https://example.com/p9"] 1000 PageType.other
       else FetchOutcome.ok [] 100 PageType.other
     let sF := (stepG cfg none env)^[10] (initState cfg)
     looping cfg sF = false ∧ sF.stateFileExists = true ∧
       sF.stats.pagesRequested = 10) := by decide

/-- C8 (amended): classification ignores the raw HTML argument and follows
the fixed order homepage, about, team, product, news, contact, legal, other
with the first match winning; `/about-us` gives `about`, `/` gives
`homepage`, an unmatched page gives `other`, and a path carrying both an
about and a team keyword gives `about`. -/
theorem c8_classify_order (h : String) :
    (∀ (url h2 : String) (m : PageMetadata), classifyPage url h m = classifyPage url h2 m) ∧
    classifyPage "https://example.com/about-us" h emptyMeta = some PageType.about ∧
    classifyPage "https://example.com/" h emptyMeta = some PageType.homepage ∧
    classifyPage "https://example.com/widgets" h emptyMeta = some PageType.other ∧
    classifyPage "https://example.com/team/about" h emptyMeta = some PageType.about ∧
    classifyPage "https://example.com/x" h { emptyMeta with title := "About Us | ACME" } =
      some PageType.about :=
  ⟨fun url h2 m => rfl, rfl, rfl, rfl, rfl, rfl⟩

theorem c8_cex :
    classifyPage "https://example.com/updates" ""
        { emptyMeta with ogType := some "article" } = some PageType.news ∧
    pathKw (lowerL ("/updates").data) ["news", "press", "blog", "article", "post",
      "stories", "media", "announcement"] = false ∧
    titleKw [] ["news", "press release", "blog"] = false := by decide

/-- C9 (amended): the politeness delay runs after an iteration exactly when
that iteration actually processed (fetched) its item and the frontier is
still non-empty; a skipped (`continue`) item bypasses the delay entirely. -/
theorem c9_politeness_delay (cfg : SpiderConfig) (robots : Option (List RobotsGroup))
    (env : String → FetchOutcome) (s : LoopState) (item : QueueItem)
    (rest : List QueueItem) (h : s.queue = item :: rest) :
    (skipCheck cfg robots s item = true →
      (stepOnce cfg robots env s).sleepCount = s.sleepCount) ∧
    (skipCheck cfg robots s item = false →
      (stepOnce cfg robots env s).sleepCount =
        (if 0 < (applyFetch env item rest s).queue.length
         then s.sleepCount + 1 else s.sleepCount)) := by
  constructor
  · intro hs
    rw [stepOnce_skip h hs]
  · intro hs
    rw [stepOnce_fetch h hs]
    unfold applySleep
    rw [(applyCheckpoint_parts (applyFetch env item rest s)).1]
    have hsc : (applyCheckpoint (applyFetch env item rest s)).sleepCount =
        (applyFetch env item rest s).sleepCount :=
      (applyCheckpoint_parts (applyFetch env item rest s)).2.2.2.2
    by_cases hcond : 0 < (applyFetch env item rest s).queue.length
    · rw [if_pos hcond, if_pos hcond]
      dsimp only
      rw [hsc, applyFetch_sleep]
    · rw [if_neg hcond, if_neg hcond, hsc, applyFetch_sleep]

theorem c9_witness :
    (let cfg : SpiderConfig := ⟨"https://example.com/", 5, 3, 1000, [], [], "spider"⟩
     let env : String → FetchOutcome := fun _ => FetchOutcome.ok [] 100 PageType.other
     let s : LoopState := ⟨[⟨"https://example.com/a", 0⟩, ⟨"https://example.com/b", 0⟩],
       ["https://example.com/a"], initStats, [], [], [], 0, false⟩
     skipCheck cfg none s ⟨"https://example.com/a", 0⟩ = true ∧
       (stepOnce cfg none env s).sleepCount = s.sleepCount) :=
  ⟨by decide,
    (c9_politeness_delay _ none _ _ ⟨"https://example.com/a", 0⟩
      [⟨"https://example.com/b", 0⟩] rfl).1 (by decide)⟩

theorem c9_cex :
    (let cfg : SpiderConfig := ⟨"https://example.com/", 5, 3, 1000, [], [], "spider"⟩
     let env : String → FetchOutcome := fun _ => FetchOutcome.ok [] 100 PageType.other
     let s : LoopState := ⟨[⟨"https://example.com/a", 0⟩, ⟨"https://example.com/b", 0⟩],
       ["https://example.com/a"], initStats, [], [], [], 0, false⟩
     looping cfg s = true ∧ looping cfg (stepOnce cfg none env s) = true ∧
       (stepOnce cfg none env s).sleepCount = s.sleepCount) := by decide

/-- C10: starting from the all-zero statistics of a fresh crawl, every
reachable state satisfies `pagesRequested = pagesSuccessful + pagesFailed`. -/
theorem c10_stats_equation (cfg : SpiderConfig) (robots : Option (List RobotsGroup))
    (env : String → FetchOutcome) (n : Nat) :
    (initState cfg).stats.pagesRequested = 0 ∧
    ((stepG cfg robots env)^[n] (initState cfg)).stats.pagesRequested =
      ((stepG cfg robots env)^[n] (initState cfg)).stats.pagesSuccessful +
        ((stepG cfg robots env)^[n] (initState cfg)).stats.pagesFailed :=
  ⟨rfl, iterate_pres (fun s h => statsInv_stepOnce h) n (initState cfg) rfl⟩

end Spider
